import Mathlib

/-!
Verification development for the HiCExplorer CHiC pipeline core
(chicAggregateStatistic.py, chicDifferentialTest.py).

The Python source is shallowly embedded: floats are modelled as rationals,
dictionaries as insertion-ordered association lists, the multiprocessing
dispatcher as a pure function on the list of per-worker outcomes, and the
HDF5 result store as an explicit tree of created group / dataset paths.
External collaborators (scipy statistical routines, the interval-tree
library construction) are taken as parameters, exactly as the spec treats
them as black-box services.
-/

namespace HiCExplorer

/-! ## Statistical tester (chicDifferentialTest.py, chisquare_test / fisher_exact_test)

scipy.stats.chi2_contingency and scipy.stats.fisher_exact are external
services; they are passed in as function parameters.  A Python ValueError
raised by the scipy call is modelled by the parameter returning none.
For chi2_contingency the relevant result components are the chi2 statistic
and the p-value (dof and expected table are unused by the caller).
stats.chi2.ppf(q, df=1) is likewise a parameter ppf : Q -> Q. -/

/-- One aligned data pair: (total_count, target_count), floats as rationals. -/
abbrev DataPair := ℚ × ℚ

/-- Loop body of chisquare_test, iterating over the enumerated zip of the two
data files.  Returns (test_result, accepted, rejected, zero_values_counter);
a test_result entry of none models np.nan.  The element order matches the
Python append order; the counter models the logged number of untestable pairs. -/
def chisquareLoop (test : DataPair → DataPair → Option (ℚ × ℚ)) (cv : ℚ) :
    List (ℕ × (DataPair × DataPair)) →
    List (Option ℚ) × List (ℕ × ℚ) × List (ℕ × ℚ) × ℕ
  | [] => ([], [], [], 0)
  | (i, (g1, g2)) :: rest =>
    let r := chisquareLoop test cv rest
    match test g1 g2 with
    | some (chi2v, pv) =>
      if cv ≤ chi2v then
        (some pv :: r.1, r.2.1, (i, pv) :: r.2.2.1, r.2.2.2)
      else
        (some pv :: r.1, (i, pv) :: r.2.1, r.2.2.1, r.2.2.2)
    | none =>
      (none :: r.1, (i, 1) :: r.2.1, r.2.2.1, r.2.2.2 + 1)

/-- chisquare_test(pDataFile1, pDataFile2, pAlpha): the critical value is
stats.chi2.ppf(1 - alpha, df=1); a pair is rejected iff chi2 >= critical value.
Untestable pairs (scipy raises ValueError) get np.nan in the result list and
are appended to accepted with p-value 1.0. -/
def chisquare_test (test : DataPair → DataPair → Option (ℚ × ℚ)) (ppf : ℚ → ℚ)
    (d1 d2 : List DataPair) (alpha : ℚ) :
    List (Option ℚ) × List (ℕ × ℚ) × List (ℕ × ℚ) × ℕ :=
  chisquareLoop test (ppf (1 - alpha)) (d1.zip d2).enum

/-- Loop body of fisher_exact_test.  The scipy call receives np.ceil of the
raw values (the exact test needs integer counts); fisher is the external
stats.fisher_exact returning the two-sided p-value, none modelling ValueError. -/
def fisherLoop (fisher : (ℤ × ℤ) → (ℤ × ℤ) → Option ℚ) (alpha : ℚ) :
    List (ℕ × (DataPair × DataPair)) →
    List (Option ℚ) × List (ℕ × ℚ) × List (ℕ × ℚ)
  | [] => ([], [], [])
  | (i, (g1, g2)) :: rest =>
    let r := fisherLoop fisher alpha rest
    match fisher (⌈g1.1⌉, ⌈g1.2⌉) (⌈g2.1⌉, ⌈g2.2⌉) with
    | some pv =>
      if pv ≤ alpha then
        (some pv :: r.1, r.2.1, (i, pv) :: r.2.2)
      else
        (some pv :: r.1, (i, pv) :: r.2.1, r.2.2)
    | none =>
      (none :: r.1, (i, 1) :: r.2.1, r.2.2)

/-- fisher_exact_test(pDataFile1, pDataFile2, pAlpha): reject iff p <= alpha. -/
def fisher_exact_test (fisher : (ℤ × ℤ) → (ℤ × ℤ) → Option ℚ)
    (d1 d2 : List DataPair) (alpha : ℚ) :
    List (Option ℚ) × List (ℕ × ℚ) × List (ℕ × ℚ) :=
  fisherLoop fisher alpha (d1.zip d2).enum

/-! ## Parallel dispatcher (chicAggregateStatistic.call_multi_core and the
inline dispatch loop in chicDifferentialTest.main)

A worker process communicates one message through its queue: either a
payload or a string starting with the failure marker.  The dispatcher is
embedded as a pure function of the list of per-worker outcomes (every
worker is drained before the failure flag is inspected, exactly as the
polling loop joins all processes before exiting).  Outcomes are collected
in worker-index order, which is the deterministic embedding of the polling
loop once every queue holds its message.  Python integer division by zero
raises ZeroDivisionError; an uncaught exception terminates the process
with exit status 1, as does the explicit exit(1) on a worker failure. -/

/-- The chunk slicing of the work list: chunk i is
items[i*per : (i+1)*per] for i < T-1 and items[i*per :] for the last chunk,
with per = len(items) // T (integer division). -/
def pychunksAux (l : List α) (per T : ℕ) : List (List α) :=
  (List.range T).map (fun i =>
    if i < T - 1 then (l.drop (i * per)).take per else l.drop (i * per))

def pychunks (l : List α) (T : ℕ) : List (List α) :=
  pychunksAux l (l.length / T) T

/-- Lines 342-343 of chicAggregateStatistic.py: the worker count is clamped
down to the workload size when the workload is smaller. -/
def clampThreads (N T : ℕ) : ℕ := if N < T then N else T

/-- Collection loop: each worker outcome either overwrites the failure
message (fail_flag stays set) or appends its payload at its index slot;
the per-index slots are read out in index order. -/
def collectOutcomes (outcomes : List (Except String γ)) : Option String × List γ :=
  outcomes.foldl (fun st oc =>
    match oc with
    | .error m => (some m, st.2)
    | .ok r => (st.1, st.2 ++ [r])) (none, [])

/-- The failure message left in fail_message after draining all workers:
the last error in collection order. -/
def lastFailure (outcomes : List (Except String γ)) : Option String :=
  outcomes.foldl (fun a oc =>
    match oc with
    | .error m => some m
    | .ok _ => a) none

/-- call_multi_core: clamp the thread count, slice the work list, run each
chunk through the worker, and either terminate with the collected failure
message or return the two flattened result lists.  A zero thread count
after clamping makes the Python integer division raise ZeroDivisionError. -/
def call_multi_core (worker : List α → Except String (List β × List γ))
    (items : List α) (threads : ℕ) : Except String (List β × List γ) :=
  if clampThreads items.length threads = 0 then Except.error "ZeroDivisionError"
  else
    match collectOutcomes ((pychunks items (clampThreads items.length threads)).map worker) with
    | (some m, _) => Except.error m
    | (none, payload) =>
      Except.ok ((payload.map Prod.fst).flatten, (payload.map Prod.snd).flatten)

/-- The chunking of chicDifferentialTest.main lines 507-512: identical slice
arithmetic but with NO clamping of the thread count. -/
def diffMainChunks (aggregatedList : List α) (threads : ℕ) : List (List α) :=
  pychunks aggregatedList threads

/-- The inline dispatcher of chicDifferentialTest.main lines 497-550:
three result lists (accepted, rejected, all), no clamping. -/
def diffMainDispatch (worker : List α → Except String (List β × List γ × List δ))
    (items : List α) (threads : ℕ) : Except String (List β × List γ × List δ) :=
  if threads = 0 then Except.error "ZeroDivisionError"
  else
    match collectOutcomes ((diffMainChunks items threads).map worker) with
    | (some m, _) => Except.error m
    | (none, payload) =>
      Except.ok ((payload.map (fun x => x.1)).flatten,
        (payload.map (fun x => x.2.1)).flatten, (payload.map (fun x => x.2.2)).flatten)

/-- Insertion sort; Python sorted() is modelled by any correct ascending
sort, and only its permutation property is used. -/
def insertLe (le : α → α → Bool) (a : α) : List α → List α
  | [] => [a]
  | b :: t => if le a b then a :: b :: t else b :: insertLe le a t

def isort (le : α → α → Bool) : List α → List α
  | [] => []
  | a :: t => insertLe le a (isort le t)

/-- The string ordering used by Python sorted() on group names. -/
def strLe (a b : String) : Bool := a ≤ b

/-! ### The matrix-count check of chicAggregateStatistic.main (lines 452-477)

The interaction file content is abstracted as the list of top-level matrix
keys plus functions giving the member names of each nested group, exactly
the values main reads from h5py.  The enumeration below mirrors the nested
loops of main, including the fact that both matrix objects are opened from
the first sample name. -/

/-- All ordered pairs (keys[i], keys[j]) with i < j, as enumerated by the
nested loops over keys_interactionFile. -/
def pairUpTo (keys : List String) : List (String × String) :=
  keys.enum.flatMap (fun p => (keys.drop (p.1 + 1)).map (fun s2 => (p.2, s2)))

/-- The interaction pairs contributed by one (sample, sample2) combination. -/
def interactionPairsFor (chroms : String → List String)
    (genes : String → String → List String) (present : String → String → List String)
    (s s2 : String) : List (List String × List String) :=
  let cl1 := (isort strLe (chroms s)).erase "genes"
  let cl2 := (isort strLe (chroms s)).erase "genes"
  (cl1.zip cl2).flatMap (fun c =>
    let g1 := isort strLe (genes s c.1)
    let g2 := isort strLe (genes s c.2)
    (g1.zip g2).filterMap (fun g =>
      if g.1 ∈ present s s2 then some ([s, c.1, g.1], [s2, c.2, g.2]) else none))

/-- interactionList as built by main: nonempty pair enumeration only when
more than one matrix key is present; otherwise main logs an error and
falls through with the empty list (NO explicit exit). -/
def aggregateInteractionList (keys : List String) (chroms : String → List String)
    (genes : String → String → List String) (present : String → String → List String) :
    List (List String × List String) :=
  if 1 < keys.length then
    (pairUpTo keys).flatMap (fun p => interactionPairsFor chroms genes present p.1 p.2)
  else []

/-- Process exit status: exit(1) and an uncaught Python exception both
terminate the interpreter with status 1. -/
def pyExitStatus : Except String γ → ℕ
  | .error _ => 1
  | .ok _ => 0

/-- The exit status of chicAggregateStatistic.main as a function of the
interaction-file content: build the interaction list, dispatch it. -/
def aggregateMainExit (keys : List String) (chroms : String → List String)
    (genes : String → String → List String) (present : String → String → List String)
    (worker : List (List String × List String) → Except String (List β × List γ))
    (threads : ℕ) : ℕ :=
  pyExitStatus (call_multi_core worker (aggregateInteractionList keys chroms genes present) threads)

/-! ## Interval aggregator (chicAggregateStatistic.filter_scores_target_list)

A Scored Record is a Python list of heterogeneous fields (strings and
floats); floats are rationals.  The scores dictionary is an
insertion-ordered association list; record keys are a generic type with a
comparator (Python sorts them with sorted()).  Negative Python indices are
length-relative; mutating item assignment through the alias
new_data_line = pScoresDictionary[key] updates the stored record in place,
which the embedding expresses by threading the dictionary state.  The
interval tree is the per-chromosome index built by the external
intervalListToIntervalTree service; intervaltree Interval objects compare
lexicographically by (begin, end, data), modelled by the tag-carrying Ival. -/

/-- One field of a Scored Record: a string or a float (as a rational);
nan models the distinguished float value np.nan. -/
inductive Field where
  | str : String → Field
  | num : ℚ → Field
  | nan : Field
deriving DecidableEq

abbrev Record := List Field

/-- Python float(x) on a record field.  float() of a non-numeric string
raises ValueError; theorems about numeric trailing fields never evaluate
the placeholder branch. -/
def asFloat : Field → ℚ
  | .num q => q
  | .str _ => 0
  | .nan => 0

/-- Python int() truncates toward zero. -/
def ratTrunc (q : ℚ) : ℤ := if 0 ≤ q then ⌊q⌋ else ⌈q⌉

/-- Python int(x) on a record field; int() of a non-numeric string raises,
again a placeholder branch outside the well-formedness hypotheses. -/
def pyInt : Field → ℤ
  | .num q => ratTrunc q
  | .str _ => 0
  | .nan => 0

/-- Python index resolution: negative indices count from the end. -/
def pyIdx (r : Record) (i : ℤ) : ℕ :=
  if i < 0 then ((r.length : ℤ) + i).toNat else i.toNat

/-- r[i] with Python index semantics; out of range raises IndexError in
Python, the default is a placeholder outside the length hypotheses. -/
def pyGetD (r : Record) (i : ℤ) : Field := r.getD (pyIdx r i) (.num 0)

/-- r[i] = v with Python index semantics (in-place item assignment). -/
def pySet (r : Record) (i : ℤ) (v : Field) : Record := r.set (pyIdx r i) v

/-- One interval of the per-chromosome interval tree; tag models the data
slot that makes equal-coordinate Interval objects distinct. -/
structure Ival where
  lo : ℤ
  hi : ℤ
  tag : ℕ
deriving DecidableEq

/-- The intervaltree Interval ordering: lexicographic by (begin, end, data). -/
def ivalLe (x y : Ival) : Bool :=
  x.lo < y.lo || (x.lo = y.lo && (x.hi < y.hi || (x.hi = y.hi && x.tag ≤ y.tag)))

/-- The per-chromosome interval index (a dict keyed by chromosome name). -/
abbrev ITree := List (String × List Ival)

/-- `chromosome in target_regions_intervaltree` plus the dict lookup; a
non-string field never equals a string dict key. -/
def lookupChrom (tree : ITree) (f : Field) : Option (List Ival) :=
  match f with
  | .str s => (tree.find? (fun e => decide (e.1 = s))).map (fun e => e.2)
  | .num _ => none
  | .nan => none

/-- tree[chromosome][start:end]: the intervals overlapping [start, end);
an empty or inverted range overlaps nothing. -/
def overlapQuery (tv : List Ival) (s e : ℤ) : List Ival :=
  if e ≤ s then [] else tv.filter (fun iv => decide (iv.lo < e) && decide (s < iv.hi))

/-- Lines 136-150: chromosome lookup, overlap query, and selection of the
first interval of the sorted overlap set; none = the record is dropped. -/
def assignTarget (tree : ITree) (r : Record) : Option Ival :=
  match lookupChrom tree (pyGetD r 0) with
  | none => none
  | some tv =>
    match isort ivalLe (overlapQuery tv (pyInt (pyGetD r 1)) (pyInt (pyGetD r 2))) with
    | [] => none
    | t :: _ => some t

/-- The scores dictionary: insertion-ordered key/record pairs. -/
abbrev ScoresD (κ : Type) := List (κ × Record)

def lookupD [DecidableEq κ] (d : ScoresD κ) (k : κ) : Option Record :=
  (d.find? (fun e => decide (e.1 = k))).map (fun e => e.2)

/-- Dict item assignment d[k] = r: overwrite in place, else append. -/
def setD [DecidableEq κ] : ScoresD κ → κ → Record → ScoresD κ
  | [], k, r => [(k, r)]
  | e :: t, k, r => if e.1 = k then (e.1, r) :: t else e :: setD t k r

/-- same_target_dict[target].append(key), creating the entry on first use
(new dict keys are appended at the end, preserving insertion order). -/
def addToGroup (std : List (Ival × List κ)) (t : Ival) (k : κ) : List (Ival × List κ) :=
  match std with
  | [] => [(t, [k])]
  | e :: rest => if e.1 = t then (e.1, e.2 ++ [k]) :: rest else e :: addToGroup rest t k

/-- The first loop of filter_scores_target_list (lines 136-150): iterate
the scores dict in insertion order, assign each record to a target (or
drop it) and group the keys per target. -/
def buildGroups [DecidableEq κ] (tree : ITree) (scores : ScoresD κ) : List (Ival × List κ) :=
  scores.foldl (fun std kr =>
    match assignTarget tree kr.2 with
    | none => std
    | some t => addToGroup std t kr.1) []

/-- list(map(float, record[-3:])) summed as a numpy length-3 vector. -/
def trailing3 (r : Record) : ℚ × ℚ × ℚ :=
  match (r.drop (r.length - 3)).map asFloat with
  | [a, b, c] => (a, b, c)
  | _ => (0, 0, 0)

/-- values accumulation of lines 154-158, reading the live dictionary. -/
def mergeValues [DecidableEq κ] (d : ScoresD κ) (ks : List κ) : ℚ × ℚ × ℚ :=
  ks.foldl (fun v k => v + trailing3 ((lookupD d k).getD [])) (0, 0, 0)

/-- Lines 159-164: the merged record built from the record of the first
sorted key, with end ([2]) and [-5] taken from the last sorted key and the
trailing three fields replaced by the sums. -/
def mergedLine [DecidableEq κ] (d : ScoresD κ) (ks : List κ) (kf : κ) : Record :=
  pySet (pySet (pySet (pySet (pySet ((lookupD d kf).getD []) 2
      (pyGetD ((lookupD d (ks.getLastD kf)).getD []) 2))
      (-5) (pyGetD ((lookupD d (ks.getLastD kf)).getD []) (-5)))
      (-3) (.num (mergeValues d ks).1))
      (-2) (.num (mergeValues d ks).2.1))
      (-1) (.num (mergeValues d ks).2.2)

/-- One iteration of the merge loop (lines 152-166) on the state
(pScoresDictionary, accepted_scores): the merged line is stored under the
first sorted key in accepted_scores AND, through the new_data_line alias,
in the scores dictionary itself. -/
def mergeStep [DecidableEq κ] (kle : κ → κ → Bool) (st : ScoresD κ × ScoresD κ)
    (tg : Ival × List κ) : ScoresD κ × ScoresD κ :=
  match isort kle tg.2 with
  | [] => st
  | kf :: rest =>
    let m := mergedLine st.1 (kf :: rest) kf
    (setD st.1 kf m, setD st.2 kf m)

/-- The merge loop over all target groups. -/
def mergePhase [DecidableEq κ] (kle : κ → κ → Bool) (d0 : ScoresD κ)
    (groups : List (Ival × List κ)) : ScoresD κ × ScoresD κ :=
  groups.foldl (mergeStep kle) (d0, [])

/-- filter_scores_target_list on a prebuilt interval tree: returns the
accepted_scores mapping together with the final state of the input
dictionary (whose records the Python code mutates through aliasing). -/
def filter_scores_target_list [DecidableEq κ] (kle : κ → κ → Bool)
    (scores : ScoresD κ) (tree : ITree) : ScoresD κ × ScoresD κ :=
  let r := mergePhase kle scores (buildGroups tree scores)
  (r.2, r.1)

/-- The first sorted key of a group: the key of the merged record. -/
def firstKeyOf (kle : κ → κ → Bool) (g : List κ) : Option κ := (isort kle g).head?

/-! ### Concrete data for witnesses and counterexamples: the scenario of the
spec (one target region, two overlapping source records) plus one record on
a chromosome absent from the index. -/

def natLe (a b : ℕ) : Bool := a ≤ b

def exTree : ITree := [("chr1", [⟨100, 200, 0⟩])]

def rec1 : Record :=
  [.str "chr1", .num 100, .num 150, .str "g", .num 5, .num 10, .num 2]

def rec2 : Record :=
  [.str "chr1", .num 150, .num 200, .str "g", .num 3, .num 20, .num 1]

def rec3 : Record :=
  [.str "chr2", .num 300, .num 400, .str "g2", .num 1, .num 5, .num 1]

def exScores : ScoresD ℕ := [(1, rec1), (2, rec2), (3, rec3)]

/-! ## Hierarchical result store writers
(chicAggregateStatistic.writeAggregateHDF, chicDifferentialTest.writeResultHDF)

The HDF5 file is modelled by the lists of created group paths, dataset
paths (with contents), scalar members (obj[name] = value) and hard links,
plus the file attributes.  create_group appends a path; the h5py membership
test `name in obj` consults every member kind.  h5py raises on creating an
existing name and on fetching a missing one; the model does not raise, and
theorems are applied to inputs where neither occurs. -/

structure H5File where
  groups : List (List String)
  datasets : List (List String × List Field)
  scalars : List (List String × Field)
  links : List (List String × List String)
  attrs : List (String × ℚ)
deriving DecidableEq

def containsMember (f : H5File) (path : List String) : Bool :=
  f.groups.any (fun p => decide (p = path)) ||
  f.datasets.any (fun e => decide (e.1 = path)) ||
  f.scalars.any (fun e => decide (e.1 = path)) ||
  f.links.any (fun e => decide (e.1 = path))

def addGroup (f : H5File) (path : List String) : H5File :=
  { f with groups := f.groups ++ [path] }

def addDataset (f : H5File) (path : List String) (data : List Field) : H5File :=
  { f with datasets := f.datasets ++ [(path, data)] }

def addScalar (f : H5File) (path : List String) (v : Field) : H5File :=
  { f with scalars := f.scalars ++ [(path, v)] }

def addLink (f : H5File) (path target : List String) : H5File :=
  { f with links := f.links ++ [(path, target)] }

/-- str() of the Python value held in a field (h5py indexing with a
non-string raises; the placeholder branches are outside the hypotheses). -/
def fieldStr : Field → String
  | .str s => s
  | .num _ => ""
  | .nan => "nan"

/-- Lines 207-263 of chicAggregateStatistic.py, one (key, data) pair of the
inner zip loop: skip empty data entirely; otherwise derive the per-record
lists and scalars (scalar variables keep the value of the LAST record), create
the matrix / chromosome / genes groups as needed — the else branch of the
chromosome lookup fetches the member named by the data-derived chromosome
string, exactly as the source does — create the gene leaf group, write its
datasets and scalars, and add the genes-index hard link. -/
def writeAggLeaf [DecidableEq κ] (f : H5File) (combo : String) (key : List String)
    (data : ScoresD κ) : H5File :=
  if data.length = 0 then f
  else
    let recs := data.map (fun e => e.2)
    let lastRec := recs.getLastD []
    let chromosome := pyGetD lastRec 0
    let start_list := recs.map (fun r => pyGetD r 1)
    let end_list := recs.map (fun r => pyGetD r 2)
    let gene_name := pyGetD lastRec 3
    let sum_of_interactions := pyGetD lastRec 4
    let relative_distance_list := recs.map (fun r => pyGetD r 5)
    let raw_target_list := recs.map (fun r => pyGetD r (-1))
    let key0 := key.headD ""
    let key1 := key.getD 1 ""
    let keyLast := key.getLastD ""
    let f1 := if containsMember f [combo, key0] then f else addGroup f [combo, key0]
    let chromKnown := containsMember f1 [combo, key0, key1]
    let chromPath := if chromKnown then [combo, key0, fieldStr chromosome]
      else [combo, key0, key1]
    let f2 := if chromKnown then f1 else addGroup f1 [combo, key0, key1]
    let f3 := if containsMember f2 [combo, key0, "genes"] then f2
      else addGroup f2 [combo, key0, "genes"]
    let leafPath := chromPath ++ [keyLast]
    let f4 := addGroup f3 leafPath
    let f5 := addScalar f4 (leafPath ++ ["chromosome"]) chromosome
    let f6 := addDataset f5 (leafPath ++ ["start_list"]) start_list
    let f7 := addDataset f6 (leafPath ++ ["end_list"]) end_list
    let f8 := addScalar f7 (leafPath ++ ["gene_name"]) gene_name
    let f9 := addScalar f8 (leafPath ++ ["sum_of_interactions"]) sum_of_interactions
    let f10 := addDataset f9 (leafPath ++ ["relative_distance_list"]) relative_distance_list
    let f11 := addDataset f10 (leafPath ++ ["raw_target_list"]) raw_target_list
    addLink f11 [combo, key0, "genes", keyLast] (chromPath ++ [keyLast])

/-- One (key_outer, data_outer) pair of the outer zip loop: ensure the
matrix-combination group, then write both samples. -/
def writeAggEntry [DecidableEq κ] (f : H5File) (keyOuter : List (List String))
    (dataOuter : List (ScoresD κ)) : H5File :=
  let combo := (keyOuter.headD []).headD "" ++ "_" ++ ((keyOuter.getD 1 []).headD "")
  let f1 := if containsMember f [combo] then f else addGroup f [combo]
  (keyOuter.zip dataOuter).foldl (fun fa kd => writeAggLeaf fa combo kd.1 kd.2) f1

/-- writeAggregateHDF: the output file is opened in truncating write mode
(empty initial state) and every entry of the zipped name/score lists is
written in order. -/
def writeAggregateHDF [DecidableEq κ] (pOutFileNamesList : List (List (List String)))
    (pAcceptedScoresList : List (List (ScoresD κ))) : H5File :=
  (pOutFileNamesList.zip pAcceptedScoresList).foldl
    (fun f e => writeAggEntry f e.1 e.2) ⟨[], [], [], [], []⟩

/-- One output row of the differential test:
[line_content1[i], line_content2[i], result, data1[i], data2[i]]. -/
structure DiffRow where
  line1 : Record
  line2 : Record
  pvalue : Field
  stats1 : ℚ × ℚ
  stats2 : ℚ × ℚ
deriving DecidableEq

/-- The gene path [matrix1, matrix2, chromosome, gene] main derives from
one inputData element. -/
def genePathOf (inputData : List (List String)) : List String :=
  [(inputData.headD []).getD 1 "", (inputData.getD 1 []).getD 1 "",
   (inputData.headD []).getD 2 "", (inputData.headD []).getD 3 ""]

/-- Lines 254-314 of chicDifferentialTest.py for one category: an empty
data object is skipped (continue) — note the category GROUP was already
created by the caller; otherwise the datasets and scalars are written
into the existing category group. -/
def writeResultGene (f : H5File) (genePath : List String) (gene_name : String)
    (category : String) (data_object : List DiffRow) : H5File :=
  if data_object.length = 0 then f
  else
    let lastRow := data_object.getLastD ⟨[], [], .num 0, (0, 0), (0, 0)⟩
    let chromosome := pyGetD lastRow.line1 0
    let start_list := data_object.map (fun row => pyGetD row.line1 1)
    let end_list := data_object.map (fun row => pyGetD row.line1 2)
    let relative_distance_list := data_object.map (fun row => pyGetD row.line1 5)
    let wp := genePath ++ [category]
    let f1 := addScalar f (wp ++ ["chromosome"]) (.str (fieldStr chromosome))
    let f2 := addDataset f1 (wp ++ ["start_list"]) start_list
    let f3 := addDataset f2 (wp ++ ["end_list"]) end_list
    let f4 := addScalar f3 (wp ++ ["gene"]) (.str gene_name)
    let f5 := addDataset f4 (wp ++ ["relative_distance_list"]) relative_distance_list
    let f6 := addScalar f5 (wp ++ ["sum_of_interactions_1"]) (.num lastRow.stats1.1)
    let f7 := addScalar f6 (wp ++ ["sum_of_interactions_2"]) (.num lastRow.stats2.1)
    let f8 := addDataset f7 (wp ++ ["raw_target_list_1"])
      (data_object.map (fun row => Field.num row.stats1.2))
    let f9 := addDataset f8 (wp ++ ["raw_target_list_2"])
      (data_object.map (fun row => Field.num row.stats2.2))
    addDataset f9 (wp ++ ["pvalue_list"]) (data_object.map (fun row => row.pvalue))

/-- Lines 223-314 for one inputData element: the matrix1 / matrix2 /
chromosome groups are created if absent, the gene group and its three
category groups accepted / rejected / all are created UNCONDITIONALLY,
then the data of each category is written (or skipped when empty). -/
def writeResultEntry (f : H5File) (inputData : List (List String))
    (acceptedData rejectedData allData : List DiffRow) : H5File :=
  let m1 := (inputData.headD []).getD 1 ""
  let m2 := (inputData.getD 1 []).getD 1 ""
  let chromosome := (inputData.headD []).getD 2 ""
  let gene_name := (inputData.headD []).getD 3 ""
  let f1 := if containsMember f [m1] then f else addGroup f [m1]
  let f2 := if containsMember f1 [m1, m2] then f1 else addGroup f1 [m1, m2]
  let f3 := if containsMember f2 [m1, m2, chromosome] then f2
    else addGroup f2 [m1, m2, chromosome]
  let genePath := genePathOf inputData
  let f4 := addGroup f3 genePath
  let f5 := addGroup f4 (genePath ++ ["accepted"])
  let f6 := addGroup f5 (genePath ++ ["rejected"])
  let f7 := addGroup f6 (genePath ++ ["all"])
  let f8 := writeResultGene f7 genePath gene_name "accepted" acceptedData
  let f9 := writeResultGene f8 genePath gene_name "rejected" rejectedData
  writeResultGene f9 genePath gene_name "all" allData

/-- writeResultHDF: truncating write mode, alpha file attribute, then every
enumerated inputData element is written with its three category lists. -/
def writeResultHDF (pAcceptedData pRejectedData pAllResultData : List (List DiffRow))
    (pInputData : List (List (List String))) (pAlpha : ℚ) : H5File :=
  pInputData.enum.foldl (fun f ie =>
    writeResultEntry f ie.2 (pAcceptedData.getD ie.1 []) (pRejectedData.getD ie.1 [])
      (pAllResultData.getD ie.1 []))
    ⟨[], [], [], [], [("alpha", pAlpha)]⟩

/-! ## Theorems -/

/-! ### Classification completeness lemmas -/

theorem chisquareLoop_len (test : DataPair → DataPair → Option (ℚ × ℚ)) (cv : ℚ)
    (l : List (ℕ × (DataPair × DataPair))) :
    (chisquareLoop test cv l).1.length =
      (chisquareLoop test cv l).2.1.length + (chisquareLoop test cv l).2.2.1.length := by
  induction l with
  | nil => simp [chisquareLoop]
  | cons hd tl ih =>
    obtain ⟨i, g1, g2⟩ := hd
    simp only [chisquareLoop]
    cases htest : test g1 g2 with
    | none => simpa using by omega
    | some v =>
      by_cases hcv : cv ≤ v.1 <;> simp [hcv, ih] <;> omega

theorem fisherLoop_len (fisher : (ℤ × ℤ) → (ℤ × ℤ) → Option ℚ) (alpha : ℚ)
    (l : List (ℕ × (DataPair × DataPair))) :
    (fisherLoop fisher alpha l).1.length =
      (fisherLoop fisher alpha l).2.1.length + (fisherLoop fisher alpha l).2.2.length := by
  induction l with
  | nil => simp [fisherLoop]
  | cons hd tl ih =>
    obtain ⟨i, g1, g2⟩ := hd
    simp only [fisherLoop]
    cases hf : fisher (⌈g1.1⌉, ⌈g1.2⌉) (⌈g2.1⌉, ⌈g2.2⌉) with
    | none => simpa using by omega
    | some v =>
      by_cases hcv : v ≤ alpha <;> simp [hcv, ih] <;> omega

/-- The accepted and rejected index lists of the chi-squared loop together
form a permutation of the processed indices. -/
theorem chisquareLoop_indices (test : DataPair → DataPair → Option (ℚ × ℚ)) (cv : ℚ)
    (l : List (ℕ × (DataPair × DataPair))) :
    ((chisquareLoop test cv l).2.1.map Prod.fst ++
      (chisquareLoop test cv l).2.2.1.map Prod.fst).Perm (l.map Prod.fst) := by
  induction l with
  | nil => simp [chisquareLoop]
  | cons hd tl ih =>
    obtain ⟨i, g1, g2⟩ := hd
    simp only [chisquareLoop]
    cases htest : test g1 g2 with
    | none =>
      simpa using List.Perm.cons i ih
    | some v =>
      by_cases hcv : cv ≤ v.1
      · simp only [hcv, if_true, List.map_cons, List.map]
        exact List.perm_append_comm.trans (List.Perm.cons i (List.perm_append_comm.trans ih))
      · simp only [hcv, if_false, List.map_cons, List.map]
        exact List.Perm.cons i ih

theorem fisherLoop_indices (fisher : (ℤ × ℤ) → (ℤ × ℤ) → Option ℚ) (alpha : ℚ)
    (l : List (ℕ × (DataPair × DataPair))) :
    ((fisherLoop fisher alpha l).2.1.map Prod.fst ++
      (fisherLoop fisher alpha l).2.2.map Prod.fst).Perm (l.map Prod.fst) := by
  induction l with
  | nil => simp [fisherLoop]
  | cons hd tl ih =>
    obtain ⟨i, g1, g2⟩ := hd
    simp only [fisherLoop]
    cases hf : fisher (⌈g1.1⌉, ⌈g1.2⌉) (⌈g2.1⌉, ⌈g2.2⌉) with
    | none => simpa using List.Perm.cons i ih
    | some v =>
      by_cases hcv : v ≤ alpha
      · simp only [hcv, if_true, List.map_cons, List.map]
        exact (List.perm_append_comm.trans (List.Perm.cons i (List.perm_append_comm.trans ih)))
      · simp only [hcv, if_false, List.map_cons, List.map]
        exact List.Perm.cons i ih

/-! ### Untestable-pair and boundary lemmas -/

theorem chisquareLoop_untestable (test : DataPair → DataPair → Option (ℚ × ℚ)) (cv : ℚ) :
    ∀ (l : List (ℕ × (DataPair × DataPair))) (pos : ℕ) (h : pos < l.length),
      test (l.get ⟨pos, h⟩).2.1 (l.get ⟨pos, h⟩).2.2 = none →
      (chisquareLoop test cv l).1[pos]? = some none ∧
        ((l.get ⟨pos, h⟩).1, (1 : ℚ)) ∈ (chisquareLoop test cv l).2.1 := by
  intro l
  induction l with
  | nil => intro pos h; simp at h
  | cons hd tl ih =>
    intro pos h hnone
    obtain ⟨i, g1, g2⟩ := hd
    cases pos with
    | zero =>
      simp only [List.get] at hnone
      simp [chisquareLoop, hnone]
    | succ p =>
      simp only [List.get] at hnone
      have hp : p < tl.length := by simpa using h
      have := ih p hp hnone
      simp only [chisquareLoop]
      cases htest : test g1 g2 with
      | none => exact ⟨by simpa using this.1, List.mem_cons_of_mem _ this.2⟩
      | some v =>
        by_cases hcv : cv ≤ v.1
        · simp only [hcv, if_true]
          exact ⟨by simpa using this.1, this.2⟩
        · simp only [hcv, if_false]
          exact ⟨by simpa using this.1, List.mem_cons_of_mem _ this.2⟩

theorem chisquareLoop_counter (test : DataPair → DataPair → Option (ℚ × ℚ)) (cv : ℚ)
    (l : List (ℕ × (DataPair × DataPair))) :
    (chisquareLoop test cv l).2.2.2 =
      l.countP (fun x => (test x.2.1 x.2.2).isNone) := by
  induction l with
  | nil => simp [chisquareLoop]
  | cons hd tl ih =>
    obtain ⟨i, g1, g2⟩ := hd
    simp only [chisquareLoop, List.countP_cons]
    cases htest : test g1 g2 with
    | none => simp [htest, ih]
    | some v =>
      by_cases hcv : cv ≤ v.1 <;> simp [hcv, htest, ih]

theorem fisherLoop_untestable (fisher : (ℤ × ℤ) → (ℤ × ℤ) → Option ℚ) (alpha : ℚ) :
    ∀ (l : List (ℕ × (DataPair × DataPair))) (pos : ℕ) (h : pos < l.length),
      fisher (⌈(l.get ⟨pos, h⟩).2.1.1⌉, ⌈(l.get ⟨pos, h⟩).2.1.2⌉)
        (⌈(l.get ⟨pos, h⟩).2.2.1⌉, ⌈(l.get ⟨pos, h⟩).2.2.2⌉) = none →
      (fisherLoop fisher alpha l).1[pos]? = some none ∧
        ((l.get ⟨pos, h⟩).1, (1 : ℚ)) ∈ (fisherLoop fisher alpha l).2.1 := by
  intro l
  induction l with
  | nil => intro pos h; simp at h
  | cons hd tl ih =>
    intro pos h hnone
    obtain ⟨i, g1, g2⟩ := hd
    cases pos with
    | zero =>
      simp only [List.get] at hnone
      simp [fisherLoop, hnone]
    | succ p =>
      simp only [List.get] at hnone
      have hp : p < tl.length := by simpa using h
      have := ih p hp hnone
      simp only [fisherLoop]
      cases hf : fisher (⌈g1.1⌉, ⌈g1.2⌉) (⌈g2.1⌉, ⌈g2.2⌉) with
      | none => exact ⟨by simpa using this.1, List.mem_cons_of_mem _ this.2⟩
      | some v =>
        by_cases hcv : v ≤ alpha
        · simp only [hcv, if_true]
          exact ⟨by simpa using this.1, this.2⟩
        · simp only [hcv, if_false]
          exact ⟨by simpa using this.1, List.mem_cons_of_mem _ this.2⟩

theorem chisquareLoop_reject (test : DataPair → DataPair → Option (ℚ × ℚ)) (cv : ℚ) :
    ∀ (l : List (ℕ × (DataPair × DataPair))) (pos : ℕ) (h : pos < l.length)
      (c p : ℚ),
      test (l.get ⟨pos, h⟩).2.1 (l.get ⟨pos, h⟩).2.2 = some (c, p) → cv ≤ c →
      ((l.get ⟨pos, h⟩).1, p) ∈ (chisquareLoop test cv l).2.2.1 := by
  intro l
  induction l with
  | nil => intro pos h; simp at h
  | cons hd tl ih =>
    intro pos h c p htest hle
    obtain ⟨i, g1, g2⟩ := hd
    cases pos with
    | zero =>
      simp only [List.get] at htest
      simp [chisquareLoop, htest, hle]
    | succ q =>
      simp only [List.get] at htest
      have hq : q < tl.length := by simpa using h
      have := ih q hq c p htest hle
      simp only [chisquareLoop]
      cases htest2 : test g1 g2 with
      | none => exact this
      | some v =>
        by_cases hcv : cv ≤ v.1
        · simp only [hcv, if_true]
          exact List.mem_cons_of_mem _ this
        · simp only [hcv, if_false]
          exact this

theorem fisherLoop_reject (fisher : (ℤ × ℤ) → (ℤ × ℤ) → Option ℚ) (alpha : ℚ) :
    ∀ (l : List (ℕ × (DataPair × DataPair))) (pos : ℕ) (h : pos < l.length) (p : ℚ),
      fisher (⌈(l.get ⟨pos, h⟩).2.1.1⌉, ⌈(l.get ⟨pos, h⟩).2.1.2⌉)
        (⌈(l.get ⟨pos, h⟩).2.2.1⌉, ⌈(l.get ⟨pos, h⟩).2.2.2⌉) = some p → p ≤ alpha →
      ((l.get ⟨pos, h⟩).1, p) ∈ (fisherLoop fisher alpha l).2.2 := by
  intro l
  induction l with
  | nil => intro pos h; simp at h
  | cons hd tl ih =>
    intro pos h p hf hle
    obtain ⟨i, g1, g2⟩ := hd
    cases pos with
    | zero =>
      simp only [List.get] at hf
      simp [fisherLoop, hf, hle]
    | succ q =>
      simp only [List.get] at hf
      have hq : q < tl.length := by simpa using h
      have := ih q hq p hf hle
      simp only [fisherLoop]
      cases hf2 : fisher (⌈g1.1⌉, ⌈g1.2⌉) (⌈g2.1⌉, ⌈g2.2⌉) with
      | none => exact this
      | some v =>
        by_cases hcv : v ≤ alpha
        · simp only [hcv, if_true]
          exact List.mem_cons_of_mem _ this
        · simp only [hcv, if_false]
          exact this

/-- Transport: the j-th element of the enumerated zip is (j, j-th pair). -/
theorem enum_get_pair (pairs : List (DataPair × DataPair)) (j : ℕ)
    (h : j < pairs.length) (h' : j < pairs.enum.length) :
    pairs.enum.get ⟨j, h'⟩ = (j, pairs.get ⟨j, h⟩) := by
  simp [List.get_eq_getElem, List.getElem_enum]

/-- C6: both chisquare_test and fisher_exact_test classify every index of the
aligned input into exactly one of the accepted or rejected sets (untestable
indices going to accepted), and len(accepted) + len(rejected) = len(test_result). -/
theorem C6_test_classification_completeness
    (test : DataPair → DataPair → Option (ℚ × ℚ)) (ppf : ℚ → ℚ)
    (fisher : (ℤ × ℤ) → (ℤ × ℤ) → Option ℚ)
    (d1 d2 : List DataPair) (alpha : ℚ) :
    ((chisquare_test test ppf d1 d2 alpha).1.length =
        (chisquare_test test ppf d1 d2 alpha).2.1.length +
          (chisquare_test test ppf d1 d2 alpha).2.2.1.length ∧
      ((chisquare_test test ppf d1 d2 alpha).2.1.map Prod.fst ++
          (chisquare_test test ppf d1 d2 alpha).2.2.1.map Prod.fst).Perm
        (List.range (d1.zip d2).length)) ∧
    ((fisher_exact_test fisher d1 d2 alpha).1.length =
        (fisher_exact_test fisher d1 d2 alpha).2.1.length +
          (fisher_exact_test fisher d1 d2 alpha).2.2.length ∧
      ((fisher_exact_test fisher d1 d2 alpha).2.1.map Prod.fst ++
          (fisher_exact_test fisher d1 d2 alpha).2.2.map Prod.fst).Perm
        (List.range (d1.zip d2).length)) := by
  refine ⟨⟨chisquareLoop_len _ _ _, ?_⟩, fisherLoop_len _ _ _, ?_⟩
  · have h := chisquareLoop_indices test (ppf (1 - alpha)) (d1.zip d2).enum
    rwa [List.enum_map_fst] at h
  · have h := fisherLoop_indices fisher alpha (d1.zip d2).enum
    rwa [List.enum_map_fst] at h

/-- C7: any index whose hypothesis test raises gets NaN (modelled as none) in
the full result list and lands in the accepted bucket with p-value 1.0; for
the chi-squared test the number of untestable pairs is counted. -/
theorem C7_untestable_handling
    (test : DataPair → DataPair → Option (ℚ × ℚ)) (ppf : ℚ → ℚ)
    (fisher : (ℤ × ℤ) → (ℤ × ℤ) → Option ℚ)
    (d1 d2 : List DataPair) (alpha : ℚ) :
    (∀ (j : ℕ) (h : j < (d1.zip d2).length),
       test ((d1.zip d2).get ⟨j, h⟩).1 ((d1.zip d2).get ⟨j, h⟩).2 = none →
       (chisquare_test test ppf d1 d2 alpha).1[j]? = some none ∧
         (j, (1 : ℚ)) ∈ (chisquare_test test ppf d1 d2 alpha).2.1) ∧
    (chisquare_test test ppf d1 d2 alpha).2.2.2 =
      (d1.zip d2).countP (fun x => (test x.1 x.2).isNone) ∧
    (∀ (j : ℕ) (h : j < (d1.zip d2).length),
       fisher (⌈((d1.zip d2).get ⟨j, h⟩).1.1⌉, ⌈((d1.zip d2).get ⟨j, h⟩).1.2⌉)
           (⌈((d1.zip d2).get ⟨j, h⟩).2.1⌉, ⌈((d1.zip d2).get ⟨j, h⟩).2.2⌉) = none →
       (fisher_exact_test fisher d1 d2 alpha).1[j]? = some none ∧
         (j, (1 : ℚ)) ∈ (fisher_exact_test fisher d1 d2 alpha).2.1) := by
  refine ⟨?_, ?_, ?_⟩
  · intro j h htest
    have h' : j < (d1.zip d2).enum.length := by simpa [List.enum_length] using h
    have key := chisquareLoop_untestable test (ppf (1 - alpha)) (d1.zip d2).enum j h'
    rw [enum_get_pair _ _ h h'] at key
    exact key htest
  · have h := chisquareLoop_counter test (ppf (1 - alpha)) (d1.zip d2).enum
    have h2 : ((d1.zip d2).enum.map Prod.snd).countP (fun x => (test x.1 x.2).isNone) =
        (d1.zip d2).countP (fun x => (test x.1 x.2).isNone) := by
      rw [List.enum_map_snd]
    rw [List.countP_map] at h2
    rw [chisquare_test]
    rw [h]
    exact h2
  · intro j h hf
    have h' : j < (d1.zip d2).enum.length := by simpa [List.enum_length] using h
    have key := fisherLoop_untestable fisher alpha (d1.zip d2).enum j h'
    rw [enum_get_pair _ _ h h'] at key
    exact key hf

/-- Witness for C7 at a concrete input: a single untestable pair. -/
theorem C7_untestable_handling_witness :
    (chisquare_test (fun _ _ => none) (fun _ => 0) [((0 : ℚ), (0 : ℚ))]
        [((0 : ℚ), (0 : ℚ))] (1 / 20)).1[0]? = some none ∧
    ((0 : ℕ), (1 : ℚ)) ∈ (chisquare_test (fun _ _ => none) (fun _ => 0)
        [((0 : ℚ), (0 : ℚ))] [((0 : ℚ), (0 : ℚ))] (1 / 20)).2.1 ∧
    (fisher_exact_test (fun _ _ => none) [((0 : ℚ), (0 : ℚ))]
        [((0 : ℚ), (0 : ℚ))] (1 / 20)).1[0]? = some none := by
  have h := C7_untestable_handling (fun _ _ => none) (fun _ => 0) (fun _ _ => none)
    [((0 : ℚ), (0 : ℚ))] [((0 : ℚ), (0 : ℚ))] (1 / 20)
  exact ⟨(h.1 0 (by decide) rfl).1, (h.1 0 (by decide) rfl).2,
    (h.2.2 0 (by decide) rfl).1⟩

/-- C8: at the decision boundary, a chi-squared statistic exactly equal to the
critical value ppf(1 - alpha) is rejected (>= not >), and a Fisher p-value
exactly equal to alpha is rejected (<= not <). -/
theorem C8_threshold_boundary
    (test : DataPair → DataPair → Option (ℚ × ℚ)) (ppf : ℚ → ℚ)
    (fisher : (ℤ × ℤ) → (ℤ × ℤ) → Option ℚ)
    (d1 d2 : List DataPair) (alpha : ℚ) :
    (∀ (j : ℕ) (h : j < (d1.zip d2).length) (c p : ℚ),
       test ((d1.zip d2).get ⟨j, h⟩).1 ((d1.zip d2).get ⟨j, h⟩).2 = some (c, p) →
       c = ppf (1 - alpha) →
       (j, p) ∈ (chisquare_test test ppf d1 d2 alpha).2.2.1) ∧
    (∀ (j : ℕ) (h : j < (d1.zip d2).length) (p : ℚ),
       fisher (⌈((d1.zip d2).get ⟨j, h⟩).1.1⌉, ⌈((d1.zip d2).get ⟨j, h⟩).1.2⌉)
           (⌈((d1.zip d2).get ⟨j, h⟩).2.1⌉, ⌈((d1.zip d2).get ⟨j, h⟩).2.2⌉) = some p →
       p = alpha →
       (j, p) ∈ (fisher_exact_test fisher d1 d2 alpha).2.2) := by
  constructor
  · intro j h c p htest hc
    have h' : j < (d1.zip d2).enum.length := by simpa [List.enum_length] using h
    have key := chisquareLoop_reject test (ppf (1 - alpha)) (d1.zip d2).enum j h' c p
    rw [enum_get_pair _ _ h h'] at key
    exact key htest (le_of_eq hc.symm)
  · intro j h p hf hp
    have h' : j < (d1.zip d2).enum.length := by simpa [List.enum_length] using h
    have key := fisherLoop_reject fisher alpha (d1.zip d2).enum j h' p
    rw [enum_get_pair _ _ h h'] at key
    exact key hf (le_of_eq hp)

/-- Witness for C8: a statistic equal to the critical value and a p-value
equal to alpha are both classified rejected at a concrete input. -/
theorem C8_threshold_boundary_witness :
    ((0 : ℕ), (1 / 50 : ℚ)) ∈ (chisquare_test (fun _ _ => some (5, 1 / 50)) (fun _ => 5)
        [((1 : ℚ), (1 : ℚ))] [((1 : ℚ), (1 : ℚ))] (1 / 20)).2.2.1 ∧
    ((0 : ℕ), (1 / 20 : ℚ)) ∈ (fisher_exact_test (fun _ _ => some (1 / 20))
        [((1 : ℚ), (1 : ℚ))] [((1 : ℚ), (1 : ℚ))] (1 / 20)).2.2 := by
  have h := C8_threshold_boundary (fun _ _ => some (5, 1 / 50)) (fun _ => 5)
    (fun _ _ => some (1 / 20)) [((1 : ℚ), (1 : ℚ))] [((1 : ℚ), (1 : ℚ))] (1 / 20)
  exact ⟨h.1 0 (by decide) 5 (1 / 50) rfl rfl, h.2 0 (by decide) (1 / 20) rfl rfl⟩

/-! ### Chunking lemmas -/

theorem pychunksAux_one (l : List α) (per : ℕ) : pychunksAux l per 1 = [l] := by
  have h : List.range 1 = [0] := by decide
  simp [pychunksAux, h]

theorem pychunksAux_succ (l : List α) (per t : ℕ) (ht : 0 < t) :
    pychunksAux l per (t + 1) = l.take per :: pychunksAux (l.drop per) per t := by
  unfold pychunksAux
  rw [List.range_succ_eq_map, List.map_cons, List.map_map]
  congr 1
  · have h0 : 0 < t + 1 - 1 := by omega
    rw [if_pos h0]
    simp
  · apply List.map_congr_left
    intro i hi
    have hdrop : (l.drop per).drop (i * per) = l.drop ((i + 1) * per) := by
      rw [List.drop_drop, Nat.add_comm, ← Nat.succ_mul]
    simp only [Function.comp, Nat.succ_eq_add_one]
    split_ifs with h1 h2
    · rw [hdrop]
    · exact absurd (show i < t - 1 by omega) h2
    · exact absurd (show i + 1 < t + 1 - 1 by omega) h1
    · rw [hdrop]

theorem pychunksAux_flatten (per : ℕ) :
    ∀ (t : ℕ) (l : List α), 0 < t → (pychunksAux l per t).flatten = l := by
  intro t
  induction t with
  | zero => intro l h; omega
  | succ s ih =>
    intro l _
    by_cases hs : 0 < s
    · rw [pychunksAux_succ l per s hs]
      simp [ih (l.drop per) hs]
    · have : s = 0 := by omega
      subst this
      simp [pychunksAux_one]

/-- Joining the contiguous chunks reproduces the original list. -/
theorem pychunks_flatten (l : List α) (T : ℕ) (hT : 0 < T) :
    (pychunks l T).flatten = l :=
  pychunksAux_flatten _ T l hT

theorem collectOutcomes_ok (f : List α → γ) (chunks : List (List α)) :
    collectOutcomes (chunks.map (fun c => Except.ok (f c))) = (none, chunks.map f) := by
  suffices h : ∀ (acc : List γ),
      (chunks.map (fun c => Except.ok (f c))).foldl (fun st (oc : Except String γ) =>
        match oc with
        | .error m => (some m, st.2)
        | .ok r => (st.1, st.2 ++ [r])) ((none : Option String), acc) =
      (none, acc ++ chunks.map f) by
    simpa [collectOutcomes] using h []
  induction chunks with
  | nil => intro acc; simp
  | cons c cs ih =>
    intro acc
    simpa using ih (acc ++ [f c])

theorem flatten_map_flatMap (ll : List (List α)) (f : α → List β) :
    (ll.map (fun c => c.flatMap f)).flatten = ll.flatten.flatMap f := by
  induction ll with
  | nil => simp
  | cons h t ih => simp [ih]

/-- C3: for a work list of length N and worker count T <= N (T > 0), the
concatenated per-chunk results of both dispatchers (call_multi_core in
chicAggregateStatistic, the inline loop in chicDifferentialTest.main)
equal sequential processing of the same list, preserving item order.  The
per-item worker contribution is an arbitrary list-valued function, covering
both the per-item append of run_target_list_compilation and the
conditional skip of run_statistical_tests. -/
theorem C3_dispatcher_order
    (w1 : α → List β) (w2 : α → List γ)
    (u1 : α → List β') (u2 : α → List γ') (u3 : α → List δ')
    (items : List α) (T : ℕ) (hT : 0 < T) (hTN : T ≤ items.length) :
    call_multi_core (fun c => Except.ok (c.flatMap w1, c.flatMap w2)) items T =
      Except.ok (items.flatMap w1, items.flatMap w2) ∧
    diffMainDispatch (fun c => Except.ok (c.flatMap u1, c.flatMap u2, c.flatMap u3)) items T =
      Except.ok (items.flatMap u1, items.flatMap u2, items.flatMap u3) := by
  have hclamp : clampThreads items.length T = T := if_neg (by omega)
  constructor
  · unfold call_multi_core
    rw [hclamp, if_neg (by omega : ¬ T = 0),
      collectOutcomes_ok (fun c => (c.flatMap w1, c.flatMap w2)) (pychunks items T)]
    simp only [List.map_map, Function.comp_def]
    rw [flatten_map_flatMap, flatten_map_flatMap, pychunks_flatten items T hT]
  · unfold diffMainDispatch diffMainChunks
    rw [if_neg (by omega : ¬ T = 0),
      collectOutcomes_ok (fun c => (c.flatMap u1, c.flatMap u2, c.flatMap u3)) (pychunks items T)]
    simp only [List.map_map, Function.comp_def]
    rw [flatten_map_flatMap, flatten_map_flatMap, flatten_map_flatMap,
      pychunks_flatten items T hT]

/-- Every chunk of a clamped slicing of a nonempty work list is nonempty. -/
theorem pychunks_chunk_ne_nil (l : List α) (T' : ℕ) (hT' : 0 < T') (hle : T' ≤ l.length) :
    ∀ c ∈ pychunks l T', c ≠ [] := by
  intro c hc
  have hper : 0 < l.length / T' := Nat.div_pos hle hT'
  have hmul : l.length / T' * T' ≤ l.length := Nat.div_mul_le_self l.length T'
  unfold pychunks pychunksAux at hc
  rw [List.mem_map] at hc
  obtain ⟨i, hi, hci⟩ := hc
  rw [List.mem_range] at hi
  have hkey : i * (l.length / T') + l.length / T' ≤ l.length := by
    have h1 : (i + 1) * (l.length / T') ≤ T' * (l.length / T') :=
      Nat.mul_le_mul_right _ (by omega)
    calc i * (l.length / T') + l.length / T' = (i + 1) * (l.length / T') := by
          rw [Nat.succ_mul]
      _ ≤ T' * (l.length / T') := h1
      _ = l.length / T' * T' := Nat.mul_comm _ _
      _ ≤ l.length := hmul
  have hlen : 0 < c.length := by
    rw [← hci]
    by_cases hlt : i < T' - 1
    · rw [if_pos hlt, List.length_take, List.length_drop]
      omega
    · rw [if_neg hlt, List.length_drop]
      omega
  exact List.length_pos.mp hlen

/-- C5 amended: chicAggregateStatistic.call_multi_core clamps the worker
count down to the workload size and (for a nonempty workload) never
produces an empty work slice; the inline dispatcher of
chicDifferentialTest.main does NOT clamp, and with fewer items than
threads its first T-1 slices are all empty while the last slice takes
the entire list. -/
theorem C5_thread_clamping (items : List α) (T : ℕ) :
    (items.length < T → clampThreads items.length T = items.length) ∧
    (0 < items.length → ∀ c ∈ pychunks items (clampThreads items.length T), c ≠ []) ∧
    (items.length < T → diffMainChunks items T = List.replicate (T - 1) [] ++ [items]) := by
  refine ⟨fun h => if_pos h, ?_, ?_⟩
  · intro hN c hc
    by_cases hT : T = 0
    · subst hT
      have hclamp : clampThreads items.length 0 = 0 := by
        unfold clampThreads
        split_ifs <;> omega
      rw [hclamp] at hc
      simp [pychunks, pychunksAux] at hc
    · refine pychunks_chunk_ne_nil items (clampThreads items.length T) ?_ ?_ c hc
      · unfold clampThreads
        split_ifs <;> omega
      · unfold clampThreads
        split_ifs <;> omega
  · intro hNT
    cases T with
    | zero => omega
    | succ s =>
      have hper : items.length / (s + 1) = 0 := Nat.div_eq_of_lt hNT
      unfold diffMainChunks pychunks
      rw [hper]
      unfold pychunksAux
      rw [List.range_succ, List.map_append, List.map_singleton]
      have hlast : (if s < s + 1 - 1 then (items.drop (s * 0)).take 0
          else items.drop (s * 0)) = items := by
        rw [if_neg (by omega)]
        simp
      have hinit : (List.range s).map (fun i =>
          if i < s + 1 - 1 then (items.drop (i * 0)).take 0 else items.drop (i * 0)) =
          List.replicate s ([] : List α) := by
        apply List.eq_replicate_iff.mpr
        constructor
        · simp
        · intro b hb
          rw [List.mem_map] at hb
          obtain ⟨i, hi, hbi⟩ := hb
          rw [List.mem_range] at hi
          rw [← hbi, if_pos (by omega)]
          simp
      rw [hlast, hinit]
      simp

/-- Counterexample to C5 as stated: the differential-test main dispatcher
does not clamp; with one work item and two threads the first spawned
worker receives an empty slice and the worker count is not reduced. -/
theorem C5_counterexample :
    [] ∈ diffMainChunks [(0 : ℕ)] 2 ∧ (diffMainChunks [(0 : ℕ)] 2).length = 2 := by
  decide

/-- Witness for C5 amended at a concrete input. -/
theorem C5_thread_clamping_witness :
    clampThreads ([7, 8, 9] : List ℕ).length 5 = 3 ∧
    (∀ c ∈ pychunks ([7, 8, 9] : List ℕ) (clampThreads ([7, 8, 9] : List ℕ).length 5), c ≠ []) ∧
    diffMainChunks ([7, 8, 9] : List ℕ) 5 = List.replicate 4 [] ++ [[7, 8, 9]] := by
  have h := C5_thread_clamping ([7, 8, 9] : List ℕ) 5
  exact ⟨h.1 (by decide), h.2.1 (by decide), h.2.2 (by decide)⟩

/-- Witness for C3 at a concrete input: three items, two workers. -/
theorem C3_dispatcher_order_witness :
    (0 < 2 ∧ 2 ≤ ([10, 20, 30] : List ℕ).length) ∧
    call_multi_core (fun c => Except.ok (c.flatMap (fun x => [x + 1]),
        c.flatMap (fun x => [x, x]))) [10, 20, 30] 2 =
      Except.ok ([11, 21, 31], [10, 10, 20, 20, 30, 30]) ∧
    diffMainDispatch (fun c => Except.ok (c.flatMap (fun x => [x + 1]),
        c.flatMap (fun x => [x * 2]), c.flatMap (fun _ : ℕ => ([] : List ℕ)))) [10, 20, 30] 2 =
      Except.ok ([11, 21, 31], [20, 40, 60], []) := by
  have h := C3_dispatcher_order (fun x => [x + 1]) (fun x => [x, x])
    (fun x => [x + 1]) (fun x => [x * 2]) (fun _ : ℕ => ([] : List ℕ))
    [10, 20, 30] 2 (by decide) (by decide)
  refine ⟨⟨by decide, by decide⟩, ?_, ?_⟩
  · rw [h.1]; rfl
  · rw [h.2]; rfl

/-! ### Failure semantics of call_multi_core (C4) -/

theorem collectOutcomes_fst (outcomes : List (Except String γ)) :
    (collectOutcomes outcomes).1 = lastFailure outcomes := by
  suffices h : ∀ (s : Option String) (acc : List γ),
      (outcomes.foldl (fun st (oc : Except String γ) =>
        match oc with
        | .error m => (some m, st.2)
        | .ok r => (st.1, st.2 ++ [r])) (s, acc)).1 =
      outcomes.foldl (fun a (oc : Except String γ) =>
        match oc with
        | .error m => some m
        | .ok _ => a) s by
    exact h none []
  induction outcomes with
  | nil => intro s acc; rfl
  | cons oc rest ih =>
    intro s acc
    cases oc with
    | error m => exact ih (some m) acc
    | ok r => exact ih s (acc ++ [r])

theorem insertLe_perm (le : α → α → Bool) (a : α) (l : List α) :
    (insertLe le a l).Perm (a :: l) := by
  induction l with
  | nil => rfl
  | cons b t ih =>
    unfold insertLe
    by_cases h : le a b
    · rw [if_pos h]
    · rw [if_neg h]
      exact (List.Perm.cons b ih).trans (List.Perm.swap a b t)

theorem isort_perm (le : α → α → Bool) (l : List α) : (isort le l).Perm l := by
  induction l with
  | nil => rfl
  | cons a t ih =>
    exact (insertLe_perm le a (isort le t)).trans (List.Perm.cons a ih)

theorem mem_isort (le : α → α → Bool) (l : List α) (x : α) :
    x ∈ isort le l ↔ x ∈ l :=
  (isort_perm le l).mem_iff

/-- C4 amended: on any worker failure the dispatcher drains every worker
(the collection loop runs until all are joined), surfaces the LAST failure
message collected in polling order, and terminates with status 1 returning
no partial results; with fewer than two matrices in the interaction file,
main logs an error, continues with an empty work list, and the program
terminates with status 1 through the uncaught ZeroDivisionError raised by
the chunk-size division in call_multi_core. -/
theorem C4_failure_semantics (α β γ : Type) :
    (∀ (worker : List α → Except String (List β × List γ)) (items : List α)
        (threads : ℕ) (m : String),
      clampThreads items.length threads ≠ 0 →
      lastFailure ((pychunks items (clampThreads items.length threads)).map worker) = some m →
      call_multi_core worker items threads = Except.error m) ∧
    (∀ (keys : List String) (chroms : String → List String)
        (genes : String → String → List String) (present : String → String → List String)
        (worker : List (List String × List String) → Except String (List β × List γ))
        (threads : ℕ),
      keys.length < 2 →
      aggregateMainExit keys chroms genes present worker threads = 1) := by
  constructor
  · intro worker items threads m h0 hlf
    unfold call_multi_core
    rw [if_neg h0]
    have hco : (collectOutcomes ((pychunks items
        (clampThreads items.length threads)).map worker)).1 = some m := by
      rw [collectOutcomes_fst]
      exact hlf
    rcases hc : collectOutcomes ((pychunks items
        (clampThreads items.length threads)).map worker) with ⟨of, payload⟩
    rw [hc] at hco
    simp only at hco
    subst hco
    rfl
  · intro keys chroms genes present worker threads hkeys
    unfold aggregateMainExit
    have hempty : aggregateInteractionList keys chroms genes present = [] := by
      unfold aggregateInteractionList
      rw [if_neg (by omega)]
    rw [hempty]
    have hclamp : clampThreads (([] : List (List String × List String)).length) threads = 0 := by
      unfold clampThreads
      simp only [List.length_nil]
      split_ifs <;> omega
    unfold call_multi_core
    rw [hclamp]
    rfl

/-- Counterexample to C4 as stated: with two failing workers the surfaced
message is the one collected last in polling order, not the first.  The
chunks are [0] (worker 0, message "first failure") and [1] (worker 1,
message "second failure"); the dispatcher exits with the second message. -/
theorem C4_counterexample :
    call_multi_core (fun c : List ℕ =>
        if c = [0] then (Except.error "first failure" : Except String (List ℕ × List ℕ))
        else Except.error "second failure") [0, 1] 2 = Except.error "second failure" ∧
    "second failure" ≠ "first failure" := by
  constructor
  · rfl
  · decide

/-- Witness for C4 amended: a concrete failing dispatch and a concrete
single-matrix interaction file. -/
theorem C4_failure_semantics_witness :
    call_multi_core (fun c : List ℕ =>
        if c = [0] then (Except.error "first failure" : Except String (List ℕ × List ℕ))
        else Except.error "second failure") [0, 1] 2 = Except.error "second failure" ∧
    aggregateMainExit ["matrix1"] (fun _ => []) (fun _ _ => []) (fun _ _ => [])
      (fun _ => Except.ok (([] : List ℕ), ([] : List ℕ))) 4 = 1 := by
  exact ⟨(C4_failure_semantics ℕ ℕ ℕ).1 (fun c : List ℕ =>
        if c = [0] then (Except.error "first failure" : Except String (List ℕ × List ℕ))
        else Except.error "second failure") [0, 1] 2 "second failure"
      (by decide) (by decide),
    (C4_failure_semantics ℕ ℕ ℕ).2 ["matrix1"] (fun _ => []) (fun _ _ => []) (fun _ _ => [])
      (fun _ => Except.ok (([] : List ℕ), ([] : List ℕ))) 4 (by decide)⟩

/-! ### Dictionary lemmas -/

theorem lookupD_setD_self [DecidableEq κ] (d : ScoresD κ) (k : κ) (r : Record) :
    lookupD (setD d k r) k = some r := by
  induction d with
  | nil => simp [setD, lookupD, List.find?]
  | cons e t ih =>
    unfold setD
    by_cases h : e.1 = k
    · rw [if_pos h]
      simp [lookupD, List.find?, h]
    · rw [if_neg h]
      simpa [lookupD, List.find?, h] using ih

theorem lookupD_setD_ne [DecidableEq κ] (d : ScoresD κ) (k k' : κ) (r : Record)
    (hne : k' ≠ k) : lookupD (setD d k r) k' = lookupD d k' := by
  induction d with
  | nil =>
    have h0 : ¬ (k = k') := fun hh => hne hh.symm
    simp [setD, lookupD, List.find?, h0]
  | cons e t ih =>
    unfold setD
    by_cases h : e.1 = k
    · rw [if_pos h]
      have h2 : ¬ e.1 = k' := by
        rw [h]
        exact fun hh => hne hh.symm
      simp [lookupD, List.find?, h2]
    · rw [if_neg h]
      by_cases h2 : e.1 = k'
      · simp [lookupD, List.find?, h2]
      · simpa [lookupD, List.find?, h2] using ih

theorem map_fst_setD [DecidableEq κ] (d : ScoresD κ) (k : κ) (r : Record)
    (hk : k ∈ d.map Prod.fst) : (setD d k r).map Prod.fst = d.map Prod.fst := by
  induction d with
  | nil => simp at hk
  | cons e t ih =>
    unfold setD
    by_cases h : e.1 = k
    · rw [if_pos h]
      simp
    · rw [if_neg h]
      simp only [List.map_cons, List.cons.injEq, true_and]
      apply ih
      rcases List.mem_cons.mp hk with h1 | h1
      · exact absurd h1.symm h
      · exact h1

theorem lookupD_of_mem_keys [DecidableEq κ] (d : ScoresD κ) (k : κ)
    (hk : k ∈ d.map Prod.fst) : ∃ r, lookupD d k = some r ∧ (k, r) ∈ d := by
  induction d with
  | nil => simp at hk
  | cons e t ih =>
    by_cases h : e.1 = k
    · refine ⟨e.2, ?_, ?_⟩
      · simp [lookupD, List.find?, h]
      · rw [← h]
        exact List.mem_cons_self _ _
    · rcases List.mem_cons.mp hk with h1 | h1
      · exact absurd h1.symm h
      · obtain ⟨r, hr1, hr2⟩ := ih h1
        refine ⟨r, ?_, List.mem_cons_of_mem _ hr2⟩
        simpa [lookupD, List.find?, h] using hr1

theorem lookupD_eq_none [DecidableEq κ] (d : ScoresD κ) (k : κ)
    (hk : k ∉ d.map Prod.fst) : lookupD d k = none := by
  induction d with
  | nil => rfl
  | cons e t ih =>
    simp only [List.map_cons, List.mem_cons, not_or] at hk
    have h1 : ¬ e.1 = k := fun hh => hk.1 hh.symm
    simpa [lookupD, List.find?, h1] using ih hk.2

/-- Keys of records in a duplicate-free dict determine the record. -/
theorem record_eq_of_nodup [DecidableEq κ] (d : ScoresD κ)
    (hnd : (d.map Prod.fst).Nodup) (k : κ) (r r' : Record)
    (h1 : (k, r) ∈ d) (h2 : (k, r') ∈ d) : r = r' := by
  induction d with
  | nil => simp at h1
  | cons e t ih =>
    simp only [List.map_cons, List.nodup_cons] at hnd
    rcases List.mem_cons.mp h1 with ha | ha <;> rcases List.mem_cons.mp h2 with hb | hb
    · exact congrArg Prod.snd (ha.trans hb.symm)
    · exfalso
      apply hnd.1
      rw [← ha]
      exact List.mem_map.mpr ⟨(k, r'), hb, rfl⟩
    · exfalso
      apply hnd.1
      rw [← hb]
      exact List.mem_map.mpr ⟨(k, r), ha, rfl⟩
    · exact ih hnd.2 ha hb

/-! ### Grouping lemmas -/

theorem flatMapSnd_addToGroup (std : List (Ival × List κ)) (t : Ival) (k : κ) :
    ((addToGroup std t k).flatMap (fun e => e.2)).Perm
      ((std.flatMap (fun e => e.2)) ++ [k]) := by
  induction std with
  | nil => simp [addToGroup]
  | cons e rest ih =>
    unfold addToGroup
    by_cases h : e.1 = t
    · rw [if_pos h]
      simp only [List.flatMap_cons, List.append_assoc]
      exact List.Perm.append_left e.2 List.perm_append_comm
    · rw [if_neg h]
      simp only [List.flatMap_cons, List.append_assoc]
      exact List.Perm.append_left e.2 ih

theorem flatMapSnd_buildGroups [DecidableEq κ] (tree : ITree) (scores : ScoresD κ) :
    ((buildGroups tree scores).flatMap (fun e => e.2)).Perm
      ((scores.filter (fun kr => (assignTarget tree kr.2).isSome)).map Prod.fst) := by
  suffices h : ∀ std : List (Ival × List κ),
      ((scores.foldl (fun std kr =>
          match assignTarget tree kr.2 with
          | none => std
          | some t => addToGroup std t kr.1) std).flatMap (fun e => e.2)).Perm
        ((std.flatMap (fun e => e.2)) ++
          (scores.filter (fun kr => (assignTarget tree kr.2).isSome)).map Prod.fst) by
    simpa [buildGroups] using h []
  induction scores with
  | nil => intro std; simp
  | cons kr rest ih =>
    intro std
    simp only [List.foldl_cons, List.filter_cons]
    cases ha : assignTarget tree kr.2 with
    | none => simpa [ha] using ih std
    | some t =>
      simp only [ha, Option.isSome_some, if_true, List.map_cons]
      have h1 := ih (addToGroup std t kr.1)
      have h2 := (flatMapSnd_addToGroup std t kr.1).append_right
        ((rest.filter (fun kr => (assignTarget tree kr.2).isSome)).map Prod.fst)
      refine (h1.trans h2).trans (List.Perm.of_eq ?_)
      rw [List.append_assoc]
      rfl

theorem nodup_flatMapSnd_buildGroups [DecidableEq κ] (tree : ITree) (scores : ScoresD κ)
    (h : (scores.map Prod.fst).Nodup) :
    ((buildGroups tree scores).flatMap (fun e => e.2)).Nodup := by
  refine (flatMapSnd_buildGroups tree scores).nodup_iff.mpr ?_
  exact ((List.filter_sublist scores).map Prod.fst).nodup h

theorem mem_keys_of_mem_flatMapSnd [DecidableEq κ] (tree : ITree) (scores : ScoresD κ)
    (k : κ) (hk : k ∈ (buildGroups tree scores).flatMap (fun e => e.2)) :
    k ∈ scores.map Prod.fst := by
  have h := (flatMapSnd_buildGroups tree scores).mem_iff.mp hk
  rw [List.mem_map] at h ⊢
  obtain ⟨kr, hkr, hfst⟩ := h
  exact ⟨kr, (List.mem_filter.mp hkr).1, hfst⟩

/-- In a duplicate-free grouping, a key determines its group entry. -/
theorem eq_of_mem_two_groups (groups : List (Ival × List κ))
    (hnd : (groups.flatMap (fun e => e.2)).Nodup) (t1 t2 : Ival) (g1 g2 : List κ) (k : κ)
    (h1 : (t1, g1) ∈ groups) (h2 : (t2, g2) ∈ groups)
    (hk1 : k ∈ g1) (hk2 : k ∈ g2) : t1 = t2 ∧ g1 = g2 := by
  induction groups with
  | nil => simp at h1
  | cons e rest ih =>
    rw [List.flatMap_cons, List.nodup_append] at hnd
    rcases List.mem_cons.mp h1 with ha | ha <;> rcases List.mem_cons.mp h2 with hb | hb
    · have h12 := ha.trans hb.symm
      exact ⟨congrArg Prod.fst h12, congrArg Prod.snd h12⟩
    · exfalso
      have hg : g1 = e.2 := congrArg Prod.snd ha
      exact hnd.2.2 (hg ▸ hk1) (List.mem_flatMap.mpr ⟨(t2, g2), hb, hk2⟩)
    · exfalso
      have hg : g2 = e.2 := congrArg Prod.snd hb
      exact hnd.2.2 (hg ▸ hk2) (List.mem_flatMap.mpr ⟨(t1, g1), ha, hk1⟩)
    · exact ih hnd.2.1 ha hb

theorem mem_addToGroup_self (std : List (Ival × List κ)) (t : Ival) (k : κ) :
    ∃ g, (t, g) ∈ addToGroup std t k ∧ k ∈ g := by
  induction std with
  | nil => exact ⟨[k], by simp [addToGroup]⟩
  | cons e rest ih =>
    unfold addToGroup
    by_cases h : e.1 = t
    · refine ⟨e.2 ++ [k], ?_, by simp⟩
      rw [if_pos h]
      exact List.mem_cons.mpr (Or.inl (by rw [h]))
    · obtain ⟨g, hg, hkg⟩ := ih
      exact ⟨g, by rw [if_neg h]; exact List.mem_cons_of_mem _ hg, hkg⟩

theorem mem_addToGroup_mono (std : List (Ival × List κ)) (t t' : Ival) (k k' : κ)
    (h : ∃ g, (t, g) ∈ std ∧ k ∈ g) : ∃ g, (t, g) ∈ addToGroup std t' k' ∧ k ∈ g := by
  induction std with
  | nil =>
    obtain ⟨g, hg, _⟩ := h
    simp at hg
  | cons e rest ih =>
    obtain ⟨g, hg, hkg⟩ := h
    unfold addToGroup
    by_cases hh : e.1 = t'
    · rcases List.mem_cons.mp hg with ha | ha
      · refine ⟨e.2 ++ [k'], ?_, ?_⟩
        · rw [if_pos hh]
          refine List.mem_cons.mpr (Or.inl ?_)
          have ht : t = e.1 := congrArg Prod.fst ha
          rw [ht]
        · have hgg : g = e.2 := congrArg Prod.snd ha
          exact List.mem_append_left _ (hgg ▸ hkg)
      · exact ⟨g, by rw [if_pos hh]; exact List.mem_cons_of_mem _ ha, hkg⟩
    · rcases List.mem_cons.mp hg with ha | ha
      · exact ⟨g, by rw [if_neg hh]; exact List.mem_cons.mpr (Or.inl ha), hkg⟩
      · obtain ⟨g2, hg2, hkg2⟩ := ih ⟨g, ha, hkg⟩
        exact ⟨g2, by rw [if_neg hh]; exact List.mem_cons_of_mem _ hg2, hkg2⟩

theorem exists_group_foldl_aux [DecidableEq κ] (tree : ITree) :
    ∀ (scores : ScoresD κ) (std : List (Ival × List κ)) (k : κ) (r : Record) (t : Ival),
      (((k, r) ∈ scores ∧ assignTarget tree r = some t) ∨ (∃ g, (t, g) ∈ std ∧ k ∈ g)) →
      ∃ g, (t, g) ∈ scores.foldl (fun std kr =>
          match assignTarget tree kr.2 with
          | none => std
          | some t => addToGroup std t kr.1) std ∧ k ∈ g := by
  intro scores
  induction scores with
  | nil =>
    intro std k r t h
    rcases h with ⟨h1, _⟩ | h2
    · simp at h1
    · simpa using h2
  | cons kr rest ih =>
    intro std k r t h
    simp only [List.foldl_cons]
    cases ha : assignTarget tree kr.2 with
    | none =>
      apply ih std k r t
      rcases h with ⟨h1, h2⟩ | h2
      · rcases List.mem_cons.mp h1 with hh | hh
        · exfalso
          have hr : r = kr.2 := congrArg Prod.snd hh
          rw [← hr] at ha
          rw [ha] at h2
          exact Option.noConfusion h2
        · exact Or.inl ⟨hh, h2⟩
      · exact Or.inr h2
    | some t' =>
      apply ih (addToGroup std t' kr.1) k r t
      rcases h with ⟨h1, h2⟩ | h2
      · rcases List.mem_cons.mp h1 with hh | hh
        · right
          have hk : kr.1 = k := (congrArg Prod.fst hh).symm
          have hr : r = kr.2 := congrArg Prod.snd hh
          rw [← hr] at ha
          rw [ha] at h2
          have ht : t' = t := Option.some.inj h2
          rw [← ht, ← hk]
          exact mem_addToGroup_self std t' kr.1
        · exact Or.inl ⟨hh, h2⟩
      · exact Or.inr (mem_addToGroup_mono std t t' k kr.1 h2)

theorem exists_group_of_assign [DecidableEq κ] (tree : ITree) (scores : ScoresD κ)
    (k : κ) (r : Record) (t : Ival) (hmem : (k, r) ∈ scores)
    (ha : assignTarget tree r = some t) :
    ∃ g, (t, g) ∈ buildGroups tree scores ∧ k ∈ g :=
  exists_group_foldl_aux tree scores [] k r t (Or.inl ⟨hmem, ha⟩)

/-! ### The merge phase -/

theorem mergeStep_nil [DecidableEq κ] (kle : κ → κ → Bool) (st : ScoresD κ × ScoresD κ)
    (tg : Ival × List κ) (hs : isort kle tg.2 = []) : mergeStep kle st tg = st := by
  unfold mergeStep
  rw [hs]

theorem mergeStep_cons [DecidableEq κ] (kle : κ → κ → Bool) (st : ScoresD κ × ScoresD κ)
    (tg : Ival × List κ) (kf : κ) (rest : List κ) (hs : isort kle tg.2 = kf :: rest) :
    mergeStep kle st tg =
      (setD st.1 kf (mergedLine st.1 (kf :: rest) kf),
       setD st.2 kf (mergedLine st.1 (kf :: rest) kf)) := by
  unfold mergeStep
  rw [hs]

/-- Only keys of some target group can appear in accepted_scores. -/
theorem mergePhase_acc_keys [DecidableEq κ] (kle : κ → κ → Bool) :
    ∀ (groups : List (Ival × List κ)) (d acc : ScoresD κ) (k : κ),
      lookupD (groups.foldl (mergeStep kle) (d, acc)).2 k ≠ none →
      lookupD acc k ≠ none ∨ k ∈ groups.flatMap (fun e => e.2) := by
  intro groups
  induction groups with
  | nil =>
    intro d acc k h
    exact Or.inl h
  | cons tg rest ih =>
    intro d acc k h
    simp only [List.foldl_cons] at h
    cases hs : isort kle tg.2 with
    | nil =>
      rw [mergeStep_nil kle _ _ hs] at h
      rcases ih _ _ _ h with h1 | h1
      · exact Or.inl h1
      · exact Or.inr (by rw [List.flatMap_cons]; exact List.mem_append_right _ h1)
    | cons kf rest2 =>
      rw [mergeStep_cons kle _ _ kf rest2 hs] at h
      rcases ih _ _ _ h with h1 | h1
      · by_cases hk : k = kf
        · refine Or.inr ?_
          rw [List.flatMap_cons]
          refine List.mem_append_left _ ?_
          rw [hk]
          exact (mem_isort kle tg.2 kf).mp (hs ▸ List.mem_cons_self _ _)
        · left
          rwa [lookupD_setD_ne _ _ _ _ hk] at h1
      · exact Or.inr (by rw [List.flatMap_cons]; exact List.mem_append_right _ h1)

theorem mergePhase_dict_unchanged [DecidableEq κ] (kle : κ → κ → Bool) :
    ∀ (groups : List (Ival × List κ)) (d acc : ScoresD κ) (k : κ),
      (∀ tg ∈ groups, firstKeyOf kle tg.2 ≠ some k) →
      lookupD (groups.foldl (mergeStep kle) (d, acc)).1 k = lookupD d k := by
  intro groups
  induction groups with
  | nil => intro d acc k _; rfl
  | cons tg rest ih =>
    intro d acc k h
    simp only [List.foldl_cons]
    cases hs : isort kle tg.2 with
    | nil =>
      rw [mergeStep_nil kle _ _ hs]
      exact ih d acc k (fun x hx => h x (List.mem_cons_of_mem _ hx))
    | cons kf rest2 =>
      rw [mergeStep_cons kle _ _ kf rest2 hs]
      have hkf : k ≠ kf := by
        intro hc
        apply h tg (List.mem_cons_self _ _)
        rw [firstKeyOf, hs, hc]
        rfl
      rw [ih _ _ k (fun x hx => h x (List.mem_cons_of_mem _ hx))]
      exact lookupD_setD_ne d kf k _ hkf

theorem mergePhase_acc_unchanged [DecidableEq κ] (kle : κ → κ → Bool) :
    ∀ (groups : List (Ival × List κ)) (d acc : ScoresD κ) (k : κ),
      (∀ tg ∈ groups, firstKeyOf kle tg.2 ≠ some k) →
      lookupD (groups.foldl (mergeStep kle) (d, acc)).2 k = lookupD acc k := by
  intro groups
  induction groups with
  | nil => intro d acc k _; rfl
  | cons tg rest ih =>
    intro d acc k h
    simp only [List.foldl_cons]
    cases hs : isort kle tg.2 with
    | nil =>
      rw [mergeStep_nil kle _ _ hs]
      exact ih d acc k (fun x hx => h x (List.mem_cons_of_mem _ hx))
    | cons kf rest2 =>
      rw [mergeStep_cons kle _ _ kf rest2 hs]
      have hkf : k ≠ kf := by
        intro hc
        apply h tg (List.mem_cons_self _ _)
        rw [firstKeyOf, hs, hc]
        rfl
      rw [ih _ _ k (fun x hx => h x (List.mem_cons_of_mem _ hx))]
      exact lookupD_setD_ne acc kf k _ hkf

theorem foldl_trailing_congr [DecidableEq κ] (d d' : ScoresD κ) :
    ∀ (ks : List κ), (∀ k ∈ ks, lookupD d k = lookupD d' k) →
    ∀ (v : ℚ × ℚ × ℚ),
      ks.foldl (fun v k => v + trailing3 ((lookupD d k).getD [])) v =
      ks.foldl (fun v k => v + trailing3 ((lookupD d' k).getD [])) v := by
  intro ks
  induction ks with
  | nil => intro _ v; rfl
  | cons a l ih =>
    intro h v
    simp only [List.foldl_cons]
    rw [h a (List.mem_cons_self _ _)]
    exact ih (fun k hk => h k (List.mem_cons_of_mem _ hk)) _

theorem mergeValues_congr [DecidableEq κ] (d d' : ScoresD κ) (ks : List κ)
    (h : ∀ k ∈ ks, lookupD d k = lookupD d' k) :
    mergeValues d ks = mergeValues d' ks :=
  foldl_trailing_congr d d' ks h (0, 0, 0)

theorem getLastD_mem_cons' (l : List α) (a : α) : l.getLastD a ∈ a :: l := by
  induction l generalizing a with
  | nil => simp
  | cons b t ih =>
    rw [List.getLastD_cons]
    exact List.mem_cons_of_mem a (ih b)

theorem mergedLine_congr [DecidableEq κ] (d d' : ScoresD κ) (kf : κ) (rest : List κ)
    (h : ∀ k ∈ kf :: rest, lookupD d k = lookupD d' k) :
    mergedLine d (kf :: rest) kf = mergedLine d' (kf :: rest) kf := by
  have hkl : (kf :: rest).getLastD kf ∈ kf :: rest := by
    rw [List.getLastD_cons]
    exact getLastD_mem_cons' rest kf
  unfold mergedLine
  rw [mergeValues_congr d d' _ h, h kf (List.mem_cons_self _ _), h _ hkl]

/-- The central merge-phase lemma: the merged record of every group is
present in both the final dictionary and in accepted_scores under the first
sorted key, built from the reference (initial) record values. -/
theorem mergePhase_main [DecidableEq κ] (kle : κ → κ → Bool) :
    ∀ (groups : List (Ival × List κ)) (d acc : ScoresD κ) (dref : ScoresD κ),
      (∀ k ∈ groups.flatMap (fun e => e.2), lookupD d k = lookupD dref k) →
      ((groups.flatMap (fun e => e.2)).Nodup) →
      ∀ tg ∈ groups, ∀ (kf : κ) (rest : List κ), isort kle tg.2 = kf :: rest →
        lookupD (groups.foldl (mergeStep kle) (d, acc)).1 kf =
          some (mergedLine dref (kf :: rest) kf) ∧
        lookupD (groups.foldl (mergeStep kle) (d, acc)).2 kf =
          some (mergedLine dref (kf :: rest) kf) := by
  intro groups
  induction groups with
  | nil =>
    intro d acc dref _ _ tg htg
    simp at htg
  | cons tg0 rest_g ih =>
    intro d acc dref hagree hnd tg htg kf rest hs
    simp only [List.foldl_cons]
    rw [List.flatMap_cons, List.nodup_append] at hnd
    rcases List.mem_cons.mp htg with heq | hmem
    · subst heq
      rw [mergeStep_cons kle _ _ kf rest hs]
      have hks_sub : ∀ k ∈ kf :: rest, k ∈ tg.2 := by
        intro k hk
        exact (mem_isort kle tg.2 k).mp (hs ▸ hk)
      have hm : mergedLine d (kf :: rest) kf = mergedLine dref (kf :: rest) kf := by
        apply mergedLine_congr
        intro k hk
        apply hagree
        rw [List.flatMap_cons]
        exact List.mem_append_left _ (hks_sub k hk)
      have hfirst : ∀ tg' ∈ rest_g, firstKeyOf kle tg'.2 ≠ some kf := by
        intro tg' htg' hc
        have h1 : kf ∈ tg'.2 := by
          unfold firstKeyOf at hc
          cases hs' : isort kle tg'.2 with
          | nil =>
            rw [hs'] at hc
            exact Option.noConfusion hc
          | cons a l =>
            rw [hs'] at hc
            have ha : a = kf := by simpa using hc
            exact ha ▸ (mem_isort kle tg'.2 a).mp (hs' ▸ List.mem_cons_self _ _)
        have h2 : kf ∈ tg.2 := hks_sub kf (List.mem_cons_self _ _)
        exact hnd.2.2 h2 (List.mem_flatMap.mpr ⟨tg', htg', h1⟩)
      simp only at hm
      rw [hm]
      constructor
      · rw [mergePhase_dict_unchanged kle rest_g _ _ kf hfirst]
        exact lookupD_setD_self _ _ _
      · rw [mergePhase_acc_unchanged kle rest_g _ _ kf hfirst]
        exact lookupD_setD_self _ _ _
    · cases hs0 : isort kle tg0.2 with
      | nil =>
        rw [mergeStep_nil kle _ _ hs0]
        refine ih d acc dref ?_ hnd.2.1 tg hmem kf rest hs
        intro k hk
        apply hagree
        rw [List.flatMap_cons]
        exact List.mem_append_right _ hk
      | cons kf0 rest0 =>
        rw [mergeStep_cons kle _ _ kf0 rest0 hs0]
        refine ih _ _ dref ?_ hnd.2.1 tg hmem kf rest hs
        intro k hk
        have hkne : k ≠ kf0 := by
          intro hc
          have h1 : kf0 ∈ tg0.2 := (mem_isort kle tg0.2 kf0).mp (hs0 ▸ List.mem_cons_self _ _)
          refine hnd.2.2 h1 ?_
          rw [← hc]
          exact hk
        rw [lookupD_setD_ne _ _ _ _ hkne]
        apply hagree
        rw [List.flatMap_cons]
        exact List.mem_append_right _ hk

theorem mergePhase_keys [DecidableEq κ] (kle : κ → κ → Bool) :
    ∀ (groups : List (Ival × List κ)) (d acc : ScoresD κ),
      (∀ tg ∈ groups, ∀ kf : κ, firstKeyOf kle tg.2 = some kf → kf ∈ d.map Prod.fst) →
      ((groups.foldl (mergeStep kle) (d, acc)).1).map Prod.fst = d.map Prod.fst := by
  intro groups
  induction groups with
  | nil => intro d acc _; rfl
  | cons tg0 rest_g ih =>
    intro d acc h
    simp only [List.foldl_cons]
    cases hs0 : isort kle tg0.2 with
    | nil =>
      rw [mergeStep_nil kle _ _ hs0]
      exact ih d acc (fun tg htg => h tg (List.mem_cons_of_mem _ htg))
    | cons kf0 rest0 =>
      rw [mergeStep_cons kle _ _ kf0 rest0 hs0]
      have hkf0 : kf0 ∈ d.map Prod.fst := by
        apply h tg0 (List.mem_cons_self _ _)
        rw [firstKeyOf, hs0]
        rfl
      have hset : (setD d kf0 (mergedLine d (kf0 :: rest0) kf0)).map Prod.fst =
          d.map Prod.fst := map_fst_setD d kf0 _ hkf0
      rw [ih _ _ ?_, hset]
      intro tg htg kf hkf
      rw [hset]
      exact h tg (List.mem_cons_of_mem _ htg) kf hkf

theorem getElem?_set_self_of_lt (l : List α) (i : ℕ) (a : α) (h : i < l.length) :
    (l.set i a)[i]? = some a := by
  simp [List.getElem?_set_self, List.getElem?_eq_getElem, h]

/-- Field extraction from the five-fold set chain of the merged record:
start (index 1) is untouched, end (index 2) carries the end of the last record
(also when length 7 makes [-5] collide with [2]), and the trailing three
positions carry the sums. -/
theorem setChain_fields (line0 lineL : Record) (L : ℕ) (hL : 7 ≤ L)
    (h0 : line0.length = L) (hl : lineL.length = L) (v : ℚ × ℚ × ℚ) (m : Record)
    (hm : m = pySet (pySet (pySet (pySet (pySet line0 2 (pyGetD lineL 2))
      (-5) (pyGetD lineL (-5))) (-3) (Field.num v.1)) (-2) (Field.num v.2.1))
      (-1) (Field.num v.2.2)) :
    pyGetD m 1 = pyGetD line0 1 ∧ pyGetD m 2 = pyGetD lineL 2 ∧ trailing3 m = v := by
  have e1 : pySet line0 2 (pyGetD lineL 2) = line0.set 2 (pyGetD lineL 2) := by
    unfold pySet pyIdx
    rw [if_neg (by omega)]
    rfl
  rw [e1] at hm
  have lb1 : (line0.set 2 (pyGetD lineL 2)).length = L := by
    rw [List.length_set, h0]
  have e2 : pySet (line0.set 2 (pyGetD lineL 2)) (-5) (pyGetD lineL (-5)) =
      (line0.set 2 (pyGetD lineL 2)).set (L - 5) (pyGetD lineL (-5)) := by
    unfold pySet pyIdx
    rw [if_pos (by omega)]
    congr 1
    omega
  rw [e2] at hm
  set b2 := (line0.set 2 (pyGetD lineL 2)).set (L - 5) (pyGetD lineL (-5)) with hb2
  have lb2 : b2.length = L := by
    rw [hb2, List.length_set, lb1]
  have e3 : pySet b2 (-3) (Field.num v.1) = b2.set (L - 3) (Field.num v.1) := by
    unfold pySet pyIdx
    rw [if_pos (by omega)]
    congr 1
    omega
  rw [e3] at hm
  have lb3 : (b2.set (L - 3) (Field.num v.1)).length = L := by
    rw [List.length_set, lb2]
  have e4 : pySet (b2.set (L - 3) (Field.num v.1)) (-2) (Field.num v.2.1) =
      (b2.set (L - 3) (Field.num v.1)).set (L - 2) (Field.num v.2.1) := by
    unfold pySet pyIdx
    rw [if_pos (by omega)]
    congr 1
    omega
  rw [e4] at hm
  set b4 := (b2.set (L - 3) (Field.num v.1)).set (L - 2) (Field.num v.2.1) with hb4
  have lb4 : b4.length = L := by
    rw [hb4, List.length_set, lb3]
  have e5 : pySet b4 (-1) (Field.num v.2.2) = b4.set (L - 1) (Field.num v.2.2) := by
    unfold pySet pyIdx
    rw [if_pos (by omega)]
    congr 1
    omega
  rw [e5] at hm
  have lb5 : m.length = L := by
    rw [hm, List.length_set, lb4]
  refine ⟨?_, ?_, ?_⟩
  · have hlhs : pyGetD m 1 = (m[1]?).getD (Field.num 0) := by
      unfold pyGetD pyIdx
      rw [if_neg (by omega), List.getD_eq_getElem?_getD]
      rfl
    have hrhs : pyGetD line0 1 = (line0[1]?).getD (Field.num 0) := by
      unfold pyGetD pyIdx
      rw [if_neg (by omega), List.getD_eq_getElem?_getD]
      rfl
    rw [hlhs, hrhs, hm, hb4, hb2]
    rw [List.getElem?_set_ne (by omega : L - 1 ≠ 1),
      List.getElem?_set_ne (by omega : L - 2 ≠ 1),
      List.getElem?_set_ne (by omega : L - 3 ≠ 1),
      List.getElem?_set_ne (by omega : L - 5 ≠ 1),
      List.getElem?_set_ne (by omega : 2 ≠ 1)]
  · have hlhs : pyGetD m 2 = (m[2]?).getD (Field.num 0) := by
      unfold pyGetD pyIdx
      rw [if_neg (by omega), List.getD_eq_getElem?_getD]
      rfl
    rw [hlhs, hm, hb4, hb2]
    rw [List.getElem?_set_ne (by omega : L - 1 ≠ 2),
      List.getElem?_set_ne (by omega : L - 2 ≠ 2),
      List.getElem?_set_ne (by omega : L - 3 ≠ 2)]
    have hfive : pyGetD lineL (-5) = pyGetD lineL (-5) := rfl
    by_cases h7 : L = 7
    · have hx : L - 5 = 2 := by omega
      rw [hx]
      have hbound : 2 < (line0.set 2 (pyGetD lineL 2)).length := by omega
      have hset : ((line0.set 2 (pyGetD lineL 2)).set 2 (pyGetD lineL (-5)))[2]? =
          some (pyGetD lineL (-5)) := getElem?_set_self_of_lt _ 2 _ hbound
      rw [hset]
      have hcollide : pyGetD lineL (-5) = pyGetD lineL 2 := by
        unfold pyGetD pyIdx
        rw [if_pos (by omega), if_neg (by omega)]
        congr 1
        omega
      rw [hcollide]
      rfl
    · rw [List.getElem?_set_ne (by omega : L - 5 ≠ 2)]
      have hbound : 2 < line0.length := by omega
      have hset : (line0.set 2 (pyGetD lineL 2))[2]? = some (pyGetD lineL 2) :=
        getElem?_set_self_of_lt _ 2 _ hbound
      rw [hset]
      rfl
  · have hdrop : m.drop (L - 3) =
        [Field.num v.1, Field.num v.2.1, Field.num v.2.2] := by
      apply List.ext_getElem?
      intro n
      rw [List.getElem?_drop]
      match n with
      | 0 =>
        rw [(by omega : L - 3 + 0 = L - 3), hm, hb4]
        rw [List.getElem?_set_ne (by omega : L - 1 ≠ L - 3),
          List.getElem?_set_ne (by omega : L - 2 ≠ L - 3)]
        have hbound : L - 3 < b2.length := by omega
        rw [getElem?_set_self_of_lt _ _ _ hbound]
        rfl
      | 1 =>
        rw [(by omega : L - 3 + 1 = L - 2), hm, hb4]
        rw [List.getElem?_set_ne (by omega : L - 1 ≠ L - 2)]
        have hbound : L - 2 < (b2.set (L - 3) (Field.num v.1)).length := by omega
        rw [getElem?_set_self_of_lt _ _ _ hbound]
        rfl
      | 2 =>
        rw [(by omega : L - 3 + 2 = L - 1), hm]
        have hbound : L - 1 < b4.length := by omega
        rw [getElem?_set_self_of_lt _ _ _ hbound]
        rfl
      | (n + 3) =>
        rw [List.getElem?_eq_none (by omega : m.length ≤ L - 3 + (n + 3))]
        rfl
    unfold trailing3
    rw [lb5, hdrop]
    simp [asFloat]

theorem mergedLine_fields [DecidableEq κ] (d : ScoresD κ) (kf : κ) (rest : List κ)
    (L : ℕ) (hL : 7 ≤ L)
    (h0 : ((lookupD d kf).getD []).length = L)
    (hl : ((lookupD d ((kf :: rest).getLastD kf)).getD []).length = L) :
    pyGetD (mergedLine d (kf :: rest) kf) 1 = pyGetD ((lookupD d kf).getD []) 1 ∧
    pyGetD (mergedLine d (kf :: rest) kf) 2 =
      pyGetD ((lookupD d ((kf :: rest).getLastD kf)).getD []) 2 ∧
    trailing3 (mergedLine d (kf :: rest) kf) = mergeValues d (kf :: rest) :=
  setChain_fields _ _ L hL h0 hl (mergeValues d (kf :: rest)) _ rfl

theorem foldl_add_trailing [DecidableEq κ] (d : ScoresD κ) :
    ∀ (ks : List κ) (v : ℚ × ℚ × ℚ),
      ks.foldl (fun v k => v + trailing3 ((lookupD d k).getD [])) v =
        v + (ks.map (fun k => trailing3 ((lookupD d k).getD []))).sum := by
  intro ks
  induction ks with
  | nil => intro v; simp
  | cons a l ih =>
    intro v
    simp only [List.foldl_cons, List.map_cons, List.sum_cons]
    rw [ih, add_assoc]

theorem mergeValues_eq_sum [DecidableEq κ] (d : ScoresD κ) (ks : List κ) :
    mergeValues d ks = (ks.map (fun k => trailing3 ((lookupD d k).getD []))).sum := by
  unfold mergeValues
  rw [foldl_add_trailing]
  have h0 : ((0, 0, 0) : ℚ × ℚ × ℚ) = 0 := rfl
  rw [h0, zero_add]

theorem firstKey_mem (kle : κ → κ → Bool) (g : List κ) (kf : κ)
    (h : firstKeyOf kle g = some kf) : kf ∈ g := by
  unfold firstKeyOf at h
  cases hs : isort kle g with
  | nil =>
    rw [hs] at h
    exact Option.noConfusion h
  | cons a l =>
    rw [hs] at h
    have ha : a = kf := by simpa using h
    exact ha ▸ (mem_isort kle g a).mp (hs ▸ List.mem_cons_self _ _)

/-- C1: for every target group, the accepted mapping holds, under the first
sorted contributing key, a merged record whose start comes from the first
sorted record, whose end comes from the last sorted record, and whose three
trailing fields are the elementwise sum of the trailing fields of all
contributing records (taken from the original input records). -/
theorem C1_merge_conservation [DecidableEq κ] (kle : κ → κ → Bool) (scores : ScoresD κ)
    (tree : ITree) (hnodup : (scores.map Prod.fst).Nodup)
    (L : ℕ) (hL : 7 ≤ L) (hlen : ∀ kr ∈ scores, kr.2.length = L) :
    ∀ tg ∈ buildGroups tree scores, ∀ (kf : κ) (rest : List κ),
      isort kle tg.2 = kf :: rest →
      ∃ m, lookupD (filter_scores_target_list kle scores tree).1 kf = some m ∧
        pyGetD m 1 = pyGetD ((lookupD scores kf).getD []) 1 ∧
        pyGetD m 2 = pyGetD ((lookupD scores ((kf :: rest).getLastD kf)).getD []) 2 ∧
        trailing3 m = (tg.2.map (fun k => trailing3 ((lookupD scores k).getD []))).sum := by
  intro tg htg kf rest hs
  have hnd := nodup_flatMapSnd_buildGroups tree scores hnodup
  have hmain := mergePhase_main kle (buildGroups tree scores) scores [] scores
    (fun k _ => rfl) hnd tg htg kf rest hs
  refine ⟨mergedLine scores (kf :: rest) kf, hmain.2, ?_⟩
  have hkf_mem : kf ∈ tg.2 := (mem_isort kle tg.2 kf).mp (hs ▸ List.mem_cons_self _ _)
  have hkl_mem : (kf :: rest).getLastD kf ∈ tg.2 := by
    have h1 : (kf :: rest).getLastD kf ∈ kf :: rest := by
      rw [List.getLastD_cons]
      exact getLastD_mem_cons' rest kf
    exact (mem_isort kle tg.2 _).mp (hs ▸ h1)
  have hlen_of : ∀ k ∈ tg.2, ((lookupD scores k).getD []).length = L := by
    intro k hk
    have hkkeys : k ∈ scores.map Prod.fst :=
      mem_keys_of_mem_flatMapSnd tree scores k (List.mem_flatMap.mpr ⟨tg, htg, hk⟩)
    obtain ⟨r, hr1, hr2⟩ := lookupD_of_mem_keys scores k hkkeys
    rw [hr1]
    simpa using hlen (k, r) hr2
  have hf := mergedLine_fields scores kf rest L hL (hlen_of kf hkf_mem)
    (hlen_of _ hkl_mem)
  refine ⟨hf.1, hf.2.1, ?_⟩
  rw [hf.2.2, mergeValues_eq_sum]
  have hperm : (kf :: rest).Perm tg.2 := hs ▸ isort_perm kle tg.2
  exact List.Perm.sum_eq (hperm.map _)

/-- Witness for C1 on the concrete scenario: the group of keys 1 and 2. -/
theorem C1_merge_conservation_witness :
    ∃ m, lookupD (filter_scores_target_list natLe exScores exTree).1 1 = some m ∧
      pyGetD m 1 = pyGetD ((lookupD exScores 1).getD []) 1 ∧
      pyGetD m 2 = pyGetD ((lookupD exScores (([1, 2] : List ℕ).getLastD 1)).getD []) 2 ∧
      trailing3 m =
        (([1, 2] : List ℕ).map (fun k => trailing3 ((lookupD exScores k).getD []))).sum := by
  exact C1_merge_conservation natLe exScores exTree (by decide) 7 (by decide) (by decide)
    (⟨100, 200, 0⟩, [1, 2]) (by decide) 1 [2] (by decide)

/-- C9 amended: filter_scores_target_list keeps the key set and order of
the input mapping and leaves every record untouched EXCEPT the record of
the first sorted key of each group, which is mutated in place (through the
new_data_line alias) into the merged record that is also returned in
accepted_scores. -/
theorem C9_frame_effect [DecidableEq κ] (kle : κ → κ → Bool) (scores : ScoresD κ)
    (tree : ITree) (hnodup : (scores.map Prod.fst).Nodup) :
    ((filter_scores_target_list kle scores tree).2.map Prod.fst = scores.map Prod.fst) ∧
    (∀ k : κ, (∀ tg ∈ buildGroups tree scores, firstKeyOf kle tg.2 ≠ some k) →
       lookupD (filter_scores_target_list kle scores tree).2 k = lookupD scores k) ∧
    (∀ tg ∈ buildGroups tree scores, ∀ (kf : κ) (rest : List κ),
       isort kle tg.2 = kf :: rest →
       lookupD (filter_scores_target_list kle scores tree).2 kf =
         some (mergedLine scores (kf :: rest) kf) ∧
       lookupD (filter_scores_target_list kle scores tree).1 kf =
         some (mergedLine scores (kf :: rest) kf)) := by
  refine ⟨?_, ?_, ?_⟩
  · show ((buildGroups tree scores).foldl (mergeStep kle) (scores, [])).1.map Prod.fst =
      scores.map Prod.fst
    apply mergePhase_keys
    intro tg htg kf hkf
    exact mem_keys_of_mem_flatMapSnd tree scores kf
      (List.mem_flatMap.mpr ⟨tg, htg, firstKey_mem kle tg.2 kf hkf⟩)
  · intro k h
    exact mergePhase_dict_unchanged kle (buildGroups tree scores) scores [] k h
  · intro tg htg kf rest hs
    have hnd := nodup_flatMapSnd_buildGroups tree scores hnodup
    have hmain := mergePhase_main kle (buildGroups tree scores) scores [] scores
      (fun k _ => rfl) hnd tg htg kf rest hs
    exact ⟨hmain.1, hmain.2⟩

/-- Witness for C9 amended on the concrete scenario. -/
theorem C9_frame_effect_witness :
    ((filter_scores_target_list natLe exScores exTree).2.map Prod.fst =
      exScores.map Prod.fst) ∧
    lookupD (filter_scores_target_list natLe exScores exTree).2 3 = lookupD exScores 3 ∧
    lookupD (filter_scores_target_list natLe exScores exTree).2 1 =
      some (mergedLine exScores [1, 2] 1) := by
  have h := C9_frame_effect natLe exScores exTree (by decide)
  exact ⟨h.1, h.2.1 3 (by decide),
    (h.2.2 (⟨100, 200, 0⟩, [1, 2]) (by decide) 1 [2] (by decide)).1⟩

/-- Counterexample to C9 as stated: after the call, the input record of the
input mapping for key 1 is no longer rec1 — the merge mutated it in place (its
end field now reads 200, the end of rec2, instead of 150). -/
theorem C9_counterexample :
    lookupD (filter_scores_target_list natLe exScores exTree).2 1 ≠ lookupD exScores 1 ∧
    lookupD exScores 1 = some rec1 := by
  have hmain := mergePhase_main natLe (buildGroups exTree exScores) exScores [] exScores
    (fun k _ => rfl) (by decide) (⟨100, 200, 0⟩, [1, 2]) (by decide) 1 [2] (by decide)
  refine ⟨?_, rfl⟩
  intro hc
  have hlook : lookupD (filter_scores_target_list natLe exScores exTree).2 1 =
      some (mergedLine exScores [1, 2] 1) := hmain.1
  have hrec : lookupD exScores 1 = some rec1 := rfl
  rw [hlook, hrec] at hc
  have h2 : pyGetD (mergedLine exScores [1, 2] 1) 2 = pyGetD rec1 2 := by
    rw [Option.some.inj hc]
  have hf := mergedLine_fields exScores 1 [2] 7 (by omega) (by rfl) (by rfl)
  rw [hf.2.1] at h2
  exact absurd h2 (by decide)

/-- C2: a source record whose chromosome is absent from the interval index
or whose [start, end) range overlaps no target contributes to no group and
no accepted record; a record with overlaps is assigned to exactly the first
interval of the sorted overlap set. -/
theorem C2_overlap_assignment [DecidableEq κ] (kle : κ → κ → Bool) (tree : ITree)
    (scores : ScoresD κ) (hnodup : (scores.map Prod.fst).Nodup)
    (k : κ) (r : Record) (hmem : (k, r) ∈ scores) :
    (assignTarget tree r = none →
       k ∉ (buildGroups tree scores).flatMap (fun e => e.2) ∧
       lookupD (filter_scores_target_list kle scores tree).1 k = none) ∧
    (∀ t, assignTarget tree r = some t →
       (∃ tv, lookupChrom tree (pyGetD r 0) = some tv ∧
          (isort ivalLe (overlapQuery tv (pyInt (pyGetD r 1)) (pyInt (pyGetD r 2)))).head? =
            some t) ∧
       (∃ g, (t, g) ∈ buildGroups tree scores ∧ k ∈ g) ∧
       (∀ t' g', (t', g') ∈ buildGroups tree scores → k ∈ g' → t' = t)) := by
  constructor
  · intro hnone
    have hnotmem : k ∉ (buildGroups tree scores).flatMap (fun e => e.2) := by
      intro hk
      have h := (flatMapSnd_buildGroups tree scores).mem_iff.mp hk
      rw [List.mem_map] at h
      obtain ⟨⟨k1, r1⟩, hkr, hfst⟩ := h
      simp only at hfst
      subst hfst
      rw [List.mem_filter] at hkr
      have hr : r1 = r := record_eq_of_nodup scores hnodup k1 r1 r hkr.1 hmem
      rw [hr, hnone] at hkr
      simp at hkr
    refine ⟨hnotmem, ?_⟩
    rcases hres : lookupD (filter_scores_target_list kle scores tree).1 k with _ | v
    · rfl
    · exfalso
      have hne : lookupD ((buildGroups tree scores).foldl (mergeStep kle) (scores, [])).2 k
          ≠ none := by
        have heq : (filter_scores_target_list kle scores tree).1 =
            ((buildGroups tree scores).foldl (mergeStep kle) (scores, [])).2 := rfl
        rw [heq] at hres
        rw [hres]
        simp
      rcases mergePhase_acc_keys kle (buildGroups tree scores) scores [] k hne with h1 | h1
      · exact h1 rfl
      · exact hnotmem h1
  · intro t ht
    refine ⟨?_, exists_group_of_assign tree scores k r t hmem ht, ?_⟩
    · unfold assignTarget at ht
      cases hc : lookupChrom tree (pyGetD r 0) with
      | none =>
        rw [hc] at ht
        exact Option.noConfusion ht
      | some tv =>
        simp only [hc] at ht
        refine ⟨tv, rfl, ?_⟩
        cases hs : isort ivalLe (overlapQuery tv (pyInt (pyGetD r 1)) (pyInt (pyGetD r 2))) with
        | nil =>
          rw [hs] at ht
          exact Option.noConfusion ht
        | cons a l =>
          rw [hs] at ht
          simpa using ht
    · intro t' g' hg' hkg'
      obtain ⟨g, hgmem, hkg⟩ := exists_group_of_assign tree scores k r t hmem ht
      have hnd := nodup_flatMapSnd_buildGroups tree scores hnodup
      exact (eq_of_mem_two_groups _ hnd t' t g' g k hg' hgmem hkg' hkg).1

/-- Witness for C2: record 1 is assigned to the unique overlapping target;
record 3 (chromosome chr2, absent from the index) is dropped entirely. -/
theorem C2_overlap_assignment_witness :
    ((∃ g, (Ival.mk 100 200 0, g) ∈ buildGroups exTree exScores ∧ 1 ∈ g) ∧
     (∀ t' g', (t', g') ∈ buildGroups exTree exScores → 1 ∈ g' → t' = Ival.mk 100 200 0)) ∧
    (3 ∉ (buildGroups exTree exScores).flatMap (fun e => e.2) ∧
     lookupD (filter_scores_target_list natLe exScores exTree).1 3 = none) := by
  have h1 := C2_overlap_assignment natLe exTree exScores (by decide) 1 rec1 (by decide)
  have h3 := C2_overlap_assignment natLe exTree exScores (by decide) 3 rec3 (by decide)
  have h12 := h1.2 ⟨100, 200, 0⟩ (by decide)
  exact ⟨⟨h12.2.1, h12.2.2⟩, h3.1 (by decide)⟩

/-! ### C10 -/

theorem writeResultGene_groups (f : H5File) (genePath : List String)
    (gene_name category : String) (rows : List DiffRow) :
    (writeResultGene f genePath gene_name category rows).groups = f.groups := by
  unfold writeResultGene
  split_ifs with h
  · rfl
  · simp [addScalar, addDataset]

/-- C10 amended: writeAggregateHDF skips an empty key entirely (nothing at
all is created for it) and creates a gene leaf group for every non-empty
key; writeResultHDF creates the gene group and all three category groups
unconditionally, and an empty category only skips the datasets and scalars
inside its (already created) group. -/
theorem C10_empty_skip (κ : Type) [DecidableEq κ] :
    (∀ (f : H5File) (combo : String) (key : List String),
       writeAggLeaf (κ := κ) f combo key ([] : ScoresD κ) = f) ∧
    (∀ (f : H5File) (combo : String) (key : List String) (data : ScoresD κ),
       data ≠ [] →
       ∃ c3, [combo, key.headD "", c3, key.getLastD ""] ∈
         (writeAggLeaf f combo key data).groups) ∧
    (∀ (f : H5File) (genePath : List String) (g c : String),
       writeResultGene f genePath g c [] = f) ∧
    (∀ (f : H5File) (genePath : List String) (g c : String) (rows : List DiffRow),
       (writeResultGene f genePath g c rows).groups = f.groups) ∧
    (∀ (f : H5File) (input : List (List String)) (a r al : List DiffRow),
       (genePathOf input ++ ["accepted"]) ∈ (writeResultEntry f input a r al).groups ∧
       (genePathOf input ++ ["rejected"]) ∈ (writeResultEntry f input a r al).groups ∧
       (genePathOf input ++ ["all"]) ∈ (writeResultEntry f input a r al).groups) := by
  refine ⟨?_, ?_, ?_, ?_, ?_⟩
  · intro f combo key
    rfl
  · intro f combo key data hne
    have hlen : ¬ data.length = 0 := by simpa [List.length_eq_zero] using hne
    unfold writeAggLeaf
    rw [if_neg hlen]
    refine ⟨if containsMember (if containsMember f [combo, key.headD ""] then f
        else addGroup f [combo, key.headD ""]) [combo, key.headD "", key.getD 1 ""] then
        fieldStr (pyGetD ((data.map (fun e => e.2)).getLastD []) 0) else key.getD 1 "", ?_⟩
    simp only []
    split_ifs <;> simp [addLink, addDataset, addScalar, addGroup]
  · intro f genePath g c
    rfl
  · intro f genePath g c rows
    exact writeResultGene_groups f genePath g c rows
  · intro f input a r al
    unfold writeResultEntry
    rw [writeResultGene_groups, writeResultGene_groups, writeResultGene_groups]
    simp [addGroup, genePathOf]

/-- Counterexample to C10 as stated: writeResultHDF creates the leaf group
for the "accepted" category even though its record data is empty. -/
theorem C10_counterexample :
    ["m1", "m2", "chr1", "gene1", "accepted"] ∈
      (writeResultHDF [[]] [[]] [[]]
        [[["c", "m1", "chr1", "gene1"], ["c", "m2", "chr1", "gene1"]]] 0).groups ∧
    ([] : List DiffRow).length = 0 := by
  constructor
  · decide
  · rfl

/-- Witness for C10 amended at concrete inputs. -/
theorem C10_empty_skip_witness :
    writeAggLeaf (κ := ℕ) ⟨[], [], [], [], []⟩ "m1_m2" ["m1", "chr1", "gene1"] [] =
      ⟨[], [], [], [], []⟩ ∧
    (∃ c3, ["m1_m2", "m1", c3, "gene1"] ∈
      (writeAggLeaf (κ := ℕ) ⟨[], [], [], [], []⟩ "m1_m2" ["m1", "chr1", "gene1"]
        [(1, rec1)]).groups) ∧
    (genePathOf [["c", "m1", "chr1", "gene1"], ["c", "m2", "chr1", "gene1"]] ++
      ["accepted"]) ∈
      (writeResultEntry ⟨[], [], [], [], []⟩
        [["c", "m1", "chr1", "gene1"], ["c", "m2", "chr1", "gene1"]] [] [] []).groups := by
  refine ⟨(C10_empty_skip ℕ).1 _ _ _, ?_, ?_⟩
  · exact (C10_empty_skip ℕ).2.1 _ "m1_m2" ["m1", "chr1", "gene1"] [(1, rec1)]
      (by simp)
  · exact ((C10_empty_skip ℕ).2.2.2.2 _ _ [] [] []).1

end HiCExplorer
